import Mathlib

/-!
# Deduplicating FUSE shim (`vfs.c`): embedding and verified properties

Shallow embedding of the deduplication core of `src/vfs.c`:
the chained hashtable (`ht_create`, `ht_hash`, `ht_set`, `ht_get`), the byte
transform of `vfs_write` / `vfs_read`, the digest rendering
`get_md5_sum_formatted`, the sidecar path computation of `write_hash` and
`vfs_read`, and the two coordinators `vfs_write` and `vfs_read`.

Conventions of the embedding.

* A byte is a `Nat` below 256; a C string is the `List Nat` of its bytes
  without the terminating NUL.  Target: Linux on an LP64 machine with a
  signed `char` (`sizeof (char *) = 8`, `unsigned long` has 64 bits).
* `MD5` (OpenSSL) is not part of the repository; it is a parameter
  `MD5 : List Nat → List Nat` of every function that calls it.
* Memory whose content the C program does not determine (an uninitialised
  local, the bytes following an allocated block or a string literal, the
  previous content of the caller's buffer) is an explicit argument.
* The backing file system is a state `filesys`; the system calls used by the
  core (`open`, `pread`, `pwrite`, `write`, `stat`, `mkdir`, `fopen`) are
  functions on it.  The process is the owner of every file and is not root
  (`main` refuses to run as root), so the owner permission bits decide.
  Resolution of parent directories is not modelled: `open_` never fails with
  `ENOTDIR` or for a missing parent, it is the call made when every parent of
  the path is a directory that can be searched and written.
* `pwrite` is the call that transfers every byte it is given and
  `pwrite_short` the call that transfers fewer.  `vfs_write_with` is
  `vfs_write` with the behaviour of its backing `pwrite` as a parameter, and
  `vfs_write` its instance for `pwrite`.
* On a digest byte of 128 or more `get_md5_sum_formatted` writes past its
  local `ch[3]`, which is undefined behaviour.  `sprintf_fits` tells that a
  digest has no such byte.  For a digest that has one, `get_md5_sum_formatted`
  gives the characters of the run in which the overflow does no other harm;
  the program may as well not return.
* A call that dereferences a NULL pointer does not return; the coordinators
  return `Option`, `none` standing for such a call.
* `log_msg` calls, and the lookups made only to compute their arguments, are
  not modelled.
-/

namespace Vfs

/-! ## C strings -/

/-- A C string: its bytes, without the terminating NUL. -/
abbrev CString := List Nat

/-- The bytes of an ASCII literal. -/
def cs (s : String) : CString := s.toList.map Char.toNat

/-- The sign of `strcmp (a, b)`: bytes are compared as `unsigned char`, the
terminating NUL being smaller than every other byte. -/
def strcmp : CString → CString → Int
  | [], [] => 0
  | [], _ :: _ => -1
  | _ :: _, [] => 1
  | a :: as, b :: bs => if a < b then -1 else if b < a then 1 else strcmp as bs

/-- The function `substr (s, x, y)`: copies `s[x], ..., s[y-1]` (nothing when `y ≤ x`). -/
def substr (s : CString) (x y : Nat) : CString := (s.drop x).take (y - x)

/-! ## At-rest transform -/

/-- The loop `encrypted[i] = buf[i] + 5` of `vfs_write`, on bytes. -/
def encode (buf : List Nat) : List Nat := buf.map (fun b => (b + 5) % 256)

/-- The loop `buf[i] = buf[i] - 5` of `vfs_read`, on bytes. -/
def decode (buf : List Nat) : List Nat := buf.map (fun b => (b + 251) % 256)

/-! ## Memory -/

/-- Memory at an address after `data` has been stored there: `mem i` is the
byte at offset `i` before the store. -/
def store (mem : Nat → Nat) (data : List Nat) : Nat → Nat :=
  fun i => if i < data.length then data.getD i 0 else mem i

/-- The `n` bytes found at an address. -/
def load (mem : Nat → Nat) (n : Nat) : List Nat := (List.range n).map mem

/-- The value of `sizeof (encrypted)` and `sizeof (buf)`: both are pointers. -/
def sizeof_ptr : Nat := 8

/-- The constant `MD5_DIGEST_LENGTH`. -/
def MD5_DIGEST_LENGTH : Nat := 16

/-! ## Digest rendering -/

/-- The lowercase hexadecimal digit of a value below 16. -/
def hex_digit (d : Nat) : Nat := if d < 10 then 48 + d else 87 + d

/-- The hexadecimal digits of `v`, most significant first, at most `fuel` of them. -/
def hex_digits : Nat → Nat → List Nat
  | 0, _ => []
  | fuel + 1, v => if v < 16 then [hex_digit v] else hex_digits fuel (v / 16) ++ [hex_digit (v % 16)]

/-- The `unsigned int` that `%x` prints for a `char` argument: the signed
`char` is promoted to `int`, so a byte of 128 or more is sign-extended. -/
def char_to_uint (b : Nat) : Nat := if b % 256 < 128 then b % 256 else 2 ^ 32 - 256 + b % 256

/-- The characters `sprintf (ch, "%02x", c)` produces for a `char` `c`. -/
def sprintf_02x (b : Nat) : List Nat :=
  let ds := hex_digits 8 (char_to_uint b)
  if ds.length < 2 then 48 :: ds else ds

/-- Whether every `sprintf (ch, "%02x", md[i])` of `get_md5_sum_formatted`
stays inside `char ch[3]`: none of the 16 bytes of `md` is 128 or more.  For
such a byte `sprintf` produces eight digits and a NUL, nine bytes written
into three, and the behaviour of the program is undefined. -/
def sprintf_fits (md : List Nat) : Bool :=
  (List.range MD5_DIGEST_LENGTH).all (fun i => decide (md.getD i 0 % 256 < 128))

/-- The function `get_md5_sum_formatted`: for each of the 16 bytes of `md` the
characters `ch[0]` and `ch[1]` of `sprintf (ch, "%02x", md[i])`.  When
`sprintf_fits md` holds this is what the function returns.  For a byte of 128
or more `sprintf` writes past `ch[3]`; the value given here is then the two
characters the function reads back in a run in which the overflow does no
other harm, one of the outcomes of the undefined behaviour. -/
def get_md5_sum_formatted (md : List Nat) : CString :=
  (List.range MD5_DIGEST_LENGTH).flatMap
    (fun i => [(sprintf_02x (md.getD i 0)).getD 0 0, (sprintf_02x (md.getD i 0)).getD 1 0])

/-! ## Hashtable -/

/-- A chain entry (`struct entry_s`); `next` is the rest of the list. -/
structure entry_t where
  key : CString
  value : CString
deriving DecidableEq, Repr

/-- The table (`struct hashtable_s`): `table[i]` is the chain of bucket `i`. -/
structure hashtable_t where
  size : Nat
  table : List (List entry_t)
deriving DecidableEq, Repr

/-- The function `ht_create`: NULL for `size < 1`, otherwise `size` empty buckets. -/
def ht_create (size : Int) : Option hashtable_t :=
  if size < 1 then none else some ⟨size.toNat, List.replicate size.toNat []⟩

/-- The constant `ULONG_MAX`. -/
def ULONG_MAX : Nat := 2 ^ 64 - 1

/-- A `char` converted to `unsigned long` (sign extension of a signed `char`). -/
def char_to_ulong (c : Nat) : Nat := if c % 256 < 128 then c % 256 else 2 ^ 64 - 256 + c % 256

/-- The loop of `ht_hash` from index `i` on, `key` being the characters left. -/
def ht_hash_loop (hashval : Nat) : CString → Nat
  | [] => hashval
  | c :: rest =>
    if hashval < ULONG_MAX then
      ht_hash_loop ((hashval * 256 % 2 ^ 64 + char_to_ulong c) % 2 ^ 64) rest
    else hashval

/-- The function `ht_hash`.  The local `hashval` is read before it is ever
assigned; `hashval0` is the value it holds on entry. -/
def ht_hash (hashtable : hashtable_t) (key : CString) (hashval0 : Nat) : Nat :=
  ht_hash_loop hashval0 key % hashtable.size

/-- The walk and the update of `ht_set` on one chain: skip the entries whose
key is smaller than `key`; replace the value when the entry reached has the
key, otherwise link a new pair in front of it (or at the end). -/
def chain_set (key value : CString) : List entry_t → List entry_t
  | [] => [⟨key, value⟩]
  | e :: rest =>
    if strcmp key e.key > 0 then e :: chain_set key value rest
    else if strcmp key e.key = 0 then ⟨e.key, value⟩ :: rest
    else ⟨key, value⟩ :: e :: rest

/-- The walk of `ht_get` on one chain. -/
def chain_get (key : CString) : List entry_t → Option CString
  | [] => none
  | e :: rest =>
    if strcmp key e.key > 0 then chain_get key rest
    else if strcmp key e.key ≠ 0 then none
    else some e.value

/-- The function `ht_set`. -/
def ht_set (hashtable : hashtable_t) (key value : CString) (hashval0 : Nat) : hashtable_t :=
  let bin := ht_hash hashtable key hashval0
  ⟨hashtable.size, hashtable.table.set bin (chain_set key value (hashtable.table.getD bin []))⟩

/-- The function `ht_get`; `none` is NULL. -/
def ht_get (hashtable : hashtable_t) (key : CString) (hashval0 : Nat) : Option CString :=
  chain_get key (hashtable.table.getD (ht_hash hashtable key hashval0) [])

/-! ## Backing file system -/

/-- A regular file: permission bits and content. -/
structure inode where
  mode : Nat
  data : List Nat
deriving DecidableEq, Repr

/-- The backing store: regular files and directories by path, and the
file-creation mask of the process. -/
structure filesys where
  files : CString → Option inode
  dirs : CString → Bool
  umask : Nat

/-- A file descriptor, identified with the path it was opened on; `none` is
the invalid descriptor `-1`. -/
abbrev Fd := Option CString

/-- The structure `fuse_file_info`, the two fields the core uses. -/
structure fuse_file_info where
  flags : Nat
  fh : Fd

/-- Access modes and flags of `open` (Linux values; `O_CREAT` is bit 6, `O_TRUNC` bit 9). -/
def O_RDONLY : Nat := 0
def O_WRONLY : Nat := 1
def O_RDWR : Nat := 2
def O_CREAT : Nat := 64
def O_TRUNC : Nat := 512

/-- Values of `errno` (Linux). -/
def EBADF : Nat := 9
def EISDIR : Nat := 21

/-- Owner read permission (`S_IRUSR`, octal 400). -/
def may_read (mode : Nat) : Bool := mode.testBit 8

/-- Owner write permission (`S_IWUSR`, octal 200). -/
def may_write (mode : Nat) : Bool := mode.testBit 7

/-- Whether the access mode of `flags` is one that writes. -/
def wants_write (flags : Nat) : Bool := flags % 4 = 1 || flags % 4 = 2

/-- Whether the owner of a file of permission bits `mode` may open it with
the access mode of `flags`. -/
def access_ok (mode flags : Nat) : Bool :=
  if flags % 4 = 0 then may_read mode
  else if flags % 4 = 1 then may_write mode
  else if flags % 4 = 2 then may_read mode && may_write mode
  else false

/-- The bits of `mode` that the file-creation mask leaves (`mode & ~umask`). -/
def apply_umask (mode umask : Nat) : Nat := mode ^^^ (mode &&& umask)

/-- Replace the file at `path`. -/
def set_file (fs : filesys) (path : CString) (f : inode) : filesys :=
  ⟨fun q => if q = path then some f else fs.files q, fs.dirs, fs.umask⟩

/-- The call `open (path, flags, mode)`: the new state and the descriptor.
The directory part of `path` is not resolved: the call is the one made when
every parent of `path` is a directory that can be searched and written. -/
def open_ (fs : filesys) (path : CString) (flags mode : Nat) : filesys × Fd :=
  match fs.files path with
  | some f =>
    if access_ok f.mode flags then
      if flags.testBit 9 && wants_write flags then (set_file fs path ⟨f.mode, []⟩, some path)
      else (fs, some path)
    else (fs, none)
  | none =>
    if fs.dirs path then (fs, if flags % 4 = 0 then some path else none)
    else if flags.testBit 6 then (set_file fs path ⟨apply_umask mode fs.umask, []⟩, some path)
    else (fs, none)

/-- The call `pread (fd, buf, size, offset)`: `errno`, or the bytes read. -/
def pread (fs : filesys) (fd : Fd) (size offset : Nat) : Except Nat (List Nat) :=
  match fd with
  | none => .error EBADF
  | some p =>
    match fs.files p with
    | none => .error (if fs.dirs p then EISDIR else EBADF)
    | some f => .ok ((f.data.drop offset).take size)

/-- The content of a file after `data` is written at `offset`; a gap
between the old end and `offset` reads as zeros. -/
def write_at (old : List Nat) (offset : Nat) (data : List Nat) : List Nat :=
  if data = [] then old
  else (old ++ List.replicate (offset - old.length) 0).take offset ++ data
    ++ old.drop (offset + data.length)

/-- The call `pwrite (fd, data, |data|, offset)` that transfers every byte:
`errno`, or the new state and the number of bytes written. -/
def pwrite (fs : filesys) (fd : Fd) (data : List Nat) (offset : Nat) : Except Nat (filesys × Nat) :=
  match fd with
  | none => .error EBADF
  | some p =>
    match fs.files p with
    | none => .error EBADF
    | some f => .ok (set_file fs p ⟨f.mode, write_at f.data offset data⟩, data.length)

/-- The call `pwrite (fd, data, |data|, offset)` that transfers at most
`count` bytes (a short write: the device is full, a limit is reached, the
source memory ends): the first `count` bytes are written and their number
is returned. -/
def pwrite_short (count : Nat) (fs : filesys) (fd : Fd) (data : List Nat) (offset : Nat) :
    Except Nat (filesys × Nat) :=
  pwrite fs fd (data.take count) offset

/-- The call `stat (path, &st)` succeeds. -/
def stat_ok (fs : filesys) (path : CString) : Bool := fs.dirs path || (fs.files path).isSome

/-- The call `mkdir (path, mode)`. -/
def mkdir (fs : filesys) (path : CString) : filesys :=
  if stat_ok fs path then fs else ⟨fs.files, fun q => if q = path then true else fs.dirs q, fs.umask⟩

/-- The call `fopen (path, "rb")` followed by reading the whole file; `none` is a NULL stream. -/
def fopen_rb (fs : filesys) (path : CString) : Option (List Nat) :=
  match fs.files path with
  | some f => if may_read f.mode then some f.data else none
  | none => none

/-- The function `vfs_error`: `-errno`. -/
def vfs_error (errno : Nat) : Int := -(errno : Int)

/-! ## Sidecar path -/

/-- The loop `for (i = k; i >= 0; i--) if (s[i] == '/') break;`: the final `i`. -/
def scan_back (s : CString) : Nat → Int
  | 0 => if s.getD 0 0 = 47 then 0 else -1
  | k + 1 => if s.getD (k + 1) 0 = 47 then ((k + 1 : Nat) : Int) else scan_back s k

/-- The local `path_copy` of `write_hash`. -/
def write_hash_path_copy (rootdir path : CString) : CString := rootdir ++ path ++ cs "_hash"

/-- The local `final_folder` of `write_hash`. -/
def write_hash_final_folder (rootdir path : CString) : CString :=
  let path_copy := write_hash_path_copy rootdir path
  let i := scan_back path_copy path_copy.length
  substr path_copy 0 (i + 1).toNat ++ cs ".hash"

/-- The local `final_file` of `write_hash`. -/
def write_hash_final_file (rootdir path : CString) : CString :=
  let path_copy := write_hash_path_copy rootdir path
  let i := scan_back path_copy path_copy.length
  let file_name := substr path_copy (i + 1).toNat path_copy.length
  write_hash_final_folder rootdir path ++ cs "/" ++ file_name

/-- The local `final_file` of `vfs_read`. -/
def vfs_read_final_file (rootdir path : CString) : CString :=
  let path_copy := rootdir ++ path ++ cs "_hash"
  let i := scan_back path_copy path_copy.length
  let folder := substr path_copy 0 (i + 1).toNat
  let final_folder := folder ++ cs ".hash"
  let file_name := substr path_copy (i + 1).toNat path_copy.length
  final_folder ++ cs "/" ++ file_name

/-! ## Coordinators -/

/-- The process state the core works on: the backing store and the global `hashtable`. -/
structure world where
  fs : filesys
  hashtable : hashtable_t

/-- The digest string the program computes for the memory at a pointer `p`:
`MD5 (p, sizeof (p), result)` followed by `get_md5_sum_formatted (result)`. -/
def digest_at (MD5 : List Nat → List Nat) (mem : Nat → Nat) : CString :=
  get_md5_sum_formatted (MD5 (load mem sizeof_ptr))

/-- Whether the rendering of the digest of the memory at a pointer stays
inside `ch[3]` (see `sprintf_fits`). -/
def digest_fits (MD5 : List Nat → List Nat) (mem : Nat → Nat) : Bool :=
  sprintf_fits (MD5 (load mem sizeof_ptr))

/-- The function `check_hash` (its argument `path` is only copied into a
local that is never used). -/
def check_hash (MD5 : List Nat → List Nat) (hashtable : hashtable_t) (encrypted : Nat → Nat)
    (hashval0 : Nat) : Int :=
  if ht_get hashtable (digest_at MD5 encrypted) hashval0 = none then 0 else 1

/-- The function `write_hash`. -/
def write_hash (MD5 : List Nat → List Nat) (rootdir : CString) (fs : filesys)
    (encrypted : Nat → Nat) (path : CString) : filesys :=
  let hash := digest_at MD5 encrypted
  let final_folder := write_hash_final_folder rootdir path
  let fs1 := if stat_ok fs final_folder then fs else mkdir fs final_folder
  let final_file := write_hash_final_file rootdir path
  let r := open_ fs1 final_file (O_RDWR ||| O_CREAT) 777
  match pwrite r.1 r.2 hash 0 with
  | .ok (fs2, _) => fs2
  | .error _ => r.1

/-- The memory contents `vfs_write` does not determine. -/
structure write_indet where
  /-- previous content of the block `malloc` returns for `encrypted`, and what follows it -/
  heap : Nat → Nat
  /-- memory at the address of the literal `""` -/
  rodata : Nat → Nat
  /-- the value of `hashval` on entry to `ht_hash`, in the lookup of `check_hash` -/
  hashval_check : Nat
  /-- the same, in the `ht_set` of the branch taken -/
  hashval_set : Nat
  /-- the same, in the `ht_get` of the branch for known content -/
  hashval_get : Nat

/-- The buffer `encrypted` of `vfs_write`, as memory: the transformed bytes and a NUL. -/
def encrypted_mem (buf : List Nat) (heap : Nat → Nat) : Nat → Nat := store heap (encode buf ++ [0])

/-- The bytes `pwrite (fi->fh, p, size, offset)` takes from memory at `p`. -/
def payload (mem : Nat → Nat) (size : Nat) : List Nat := load mem size

/-- The payload of the backing write of `vfs_write`, by branch:
`encrypted` when `check_hash` returned 0, the literal `""` otherwise, in both
cases with the count `size`. -/
def vfs_write_payload (known : Bool) (buf : List Nat) (u : write_indet) : List Nat :=
  if known then payload (store u.rodata [0]) buf.length
  else payload (encrypted_mem buf u.heap) buf.length

/-- The function `vfs_write` (`size` is the length of `buf`).  The parameter
`pw` is the behaviour of the backing call `pwrite (fi->fh, p, size, offset)`:
from the state, the descriptor, the `size` bytes at `p` and the offset to
`errno`, or to the new state and the count returned. -/
def vfs_write_with (pw : filesys → Fd → List Nat → Nat → Except Nat (filesys × Nat))
    (MD5 : List Nat → List Nat) (rootdir : CString) (w : world) (path : CString)
    (buf : List Nat) (offset : Nat) (fi : fuse_file_info) (u : write_indet) : Option (Int × world) :=
  let encrypted := encrypted_mem buf u.heap
  let file_path := rootdir ++ path
  let hash := digest_at MD5 encrypted
  if check_hash MD5 w.hashtable encrypted u.hashval_check = 0 then
    let ht1 := ht_set w.hashtable hash file_path u.hashval_set
    match pw w.fs fi.fh (vfs_write_payload false buf u) offset with
    | .ok (fs1, n) => some ((n : Int), ⟨write_hash MD5 rootdir fs1 encrypted path, ht1⟩)
    | .error e => some (vfs_error e, ⟨write_hash MD5 rootdir w.fs encrypted path, ht1⟩)
  else
    match ht_get w.hashtable hash u.hashval_get with
    | none => none
    | some val =>
      let newVal := val ++ cs ":" ++ file_path
      let ht1 := ht_set w.hashtable hash newVal u.hashval_set
      match pw w.fs fi.fh (vfs_write_payload true buf u) offset with
      | .ok (fs1, n) => some ((n : Int), ⟨write_hash MD5 rootdir fs1 encrypted path, ht1⟩)
      | .error e => some (vfs_error e, ⟨write_hash MD5 rootdir w.fs encrypted path, ht1⟩)

/-- The function `vfs_write` when its backing `pwrite` transfers every byte. -/
def vfs_write (MD5 : List Nat → List Nat) (rootdir : CString) (w : world) (path : CString)
    (buf : List Nat) (offset : Nat) (fi : fuse_file_info) (u : write_indet) : Option (Int × world) :=
  vfs_write_with pwrite MD5 rootdir w path buf offset fi u

/-- The loop `for (i = 0; i < strlen (val); i++) if (val[i] == ':') break;`: the final `i`. -/
def find_colon : CString → Nat
  | [] => 0
  | c :: rest => if c = 58 then 0 else find_colon rest + 1

/-- A buffer read with `fread` and NUL-terminated, as a C string. -/
def as_cstring (bytes : List Nat) : CString := bytes.takeWhile (fun b => b ≠ 0)

/-- What `vfs_read` leaves: the return value, the `size` bytes of the
caller's buffer, and the backing store. -/
structure read_result where
  retstat : Int
  buf : List Nat
  fs : filesys

/-- The function `vfs_read`.  `buf` is the memory at the caller's buffer
on entry, `hashval0` the value of `hashval` on entry to `ht_hash`. -/
def vfs_read (MD5 : List Nat → List Nat) (rootdir : CString) (w : world) (path : CString)
    (buf : Nat → Nat) (size offset : Nat) (fi : fuse_file_info) (hashval0 : Nat) :
    Option read_result :=
  match pread w.fs fi.fh size offset with
  | .error e => some ⟨vfs_error e, load buf size, w.fs⟩
  | .ok raw =>
    let buf1 := store buf raw
    let hash := digest_at MD5 buf1
    match fopen_rb w.fs (vfs_read_final_file rootdir path) with
    | none => none
    | some bytes =>
      let contents := as_cstring bytes
      if strcmp hash contents = 0 then
        some ⟨(raw.length : Int), decode (load buf1 size), w.fs⟩
      else
        match ht_get w.hashtable contents hashval0 with
        | none => none
        | some val =>
          let original_path := substr val 0 (find_colon val)
          let r := open_ w.fs original_path fi.flags 0
          match pread r.1 r.2 size offset with
          | .error _ => some ⟨-1, decode (load buf1 size), r.1⟩
          | .ok raw2 => some ⟨(raw2.length : Int), decode (load (store buf1 raw2) size), r.1⟩

/-! ## Worked example data -/

deriving instance DecidableEq for Except

/-- A stand-in for the digest function in the worked examples: the hashed
bytes themselves. -/
def sample_md5 (d : List Nat) : List Nat := d

/-- A backing store with three empty regular files under the root `/r`. -/
def sample_fs : filesys :=
  ⟨fun q => if q = cs "/r/a" ∨ q = cs "/r/b" ∨ q = cs "/r/c" then some ⟨420, []⟩ else none,
   fun q => decide (q = cs "/r"), 18⟩

/-- Indeterminate memory for the worked examples. -/
def sample_indet : write_indet := ⟨fun _ => 170, fun _ => 187, 0, 0, 0⟩

/-- The store above with an empty index of four buckets. -/
def sample_world : world := ⟨sample_fs, ⟨4, [[], [], [], []]⟩⟩

/-- The file information of a file opened read-write on `p`. -/
def sample_fi (p : String) : fuse_file_info := ⟨O_RDWR, some (cs p)⟩

/-- The state after `vfs_write` of the text `b` at offset 0 through `/r` followed by `p`. -/
def after_write (w : world) (p : String) (b : String) : world :=
  match vfs_write sample_md5 (cs "/r") w (cs p) (cs b) 0 (sample_fi ("/r" ++ p)) sample_indet with
  | some (_, w1) => w1
  | none => w

/-- The example state after writing `hello world` through `/a`. -/
def sample_world_a : world := after_write sample_world "/a" "hello world"

/-- Shape of a table built by `ht_create` and `ht_set`: one chain per
bucket, at least one bucket. -/
def ht_wf (t : hashtable_t) : Prop := t.table.length = t.size ∧ 0 < t.size

/-- One call of `vfs_write`: its arguments and the indeterminate memory it meets. -/
structure write_req where
  path : CString
  buf : List Nat
  offset : Nat
  fi : fuse_file_info
  u : write_indet

/-- A sequence of `vfs_write` calls, first to last; `none` when one of them does not return. -/
def vfs_write_seq (MD5 : List Nat → List Nat) (rootdir : CString) : world → List write_req → Option world
  | w, [] => some w
  | w, r :: rs =>
    match vfs_write MD5 rootdir w r.path r.buf r.offset r.fi r.u with
    | none => none
    | some (_, w1) => vfs_write_seq MD5 rootdir w1 rs

/-- The request of the worked examples: the text `b` written at offset 0 through `/r` followed by `p`. -/
def sample_req (p : String) (b : String) : write_req :=
  ⟨cs p, cs b, 0, sample_fi ("/r" ++ p), sample_indet⟩

/-- A backing store whose first file has a colon in its name. -/
def colon_fs : filesys :=
  ⟨fun q => if q = cs "/r/a:b" ∨ q = cs "/r/p" ∨ q = cs "/r/q" then some ⟨420, []⟩ else none,
   fun q => decide (q = cs "/r"), 18⟩

/-- The store above with an empty index of four buckets. -/
def colon_world : world := ⟨colon_fs, ⟨4, [[], [], [], []]⟩⟩

/-- The table `main` creates: `ht_create (65536)`. -/
def main_table : hashtable_t := ⟨65536, List.replicate 65536 []⟩

/-- One `ht_set` call: its arguments and the value `hashval` holds on entry to `ht_hash`. -/
structure set_call where
  key : CString
  value : CString
  hashval0 : Nat

/-- The table after a sequence of `ht_set` calls, first to last. -/
def ht_set_seq (t : hashtable_t) : List set_call → hashtable_t
  | [] => t
  | c :: rest => ht_set_seq (ht_set t c.key c.value c.hashval0) rest

/-- A chain whose keys are strictly ascending in `strcmp` order. -/
def chain_ascending (c : List entry_t) : Prop :=
  List.Pairwise (fun e1 e2 => strcmp e1.key e2.key < 0) c

/-- A backing store in which `/r/a` holds the nine encoded bytes of
`abcdefgh1` and its sidecar holds the rendered digest of these nine bytes;
`/r/b` is another file of nine bytes. -/
def whole_digest_fs (MD5 : List Nat → List Nat) : filesys :=
  ⟨fun q => if q = cs "/r/a" then some ⟨420, encode (cs "abcdefgh1")⟩
     else if q = cs "/r/b" then some ⟨420, encode (cs "other one")⟩
     else if q = cs "/r/.hash/a_hash" then
       some ⟨777, get_md5_sum_formatted (MD5 (encode (cs "abcdefgh1")))⟩
     else none,
   fun q => decide (q = cs "/r" ∨ q = cs "/r/.hash"), 18⟩

/-- Indeterminate memory made of small bytes. -/
def low_indet : write_indet := ⟨fun _ => 1, fun _ => 2, 0, 0, 0⟩

/-- The request of the worked examples with the memory of `low_indet`. -/
def low_req (p : String) (b : String) : write_req :=
  ⟨cs p, cs b, 0, sample_fi ("/r" ++ p), low_indet⟩

/-- The example state after writing `hello` through `/a`, the memory after the
block of `encrypted` holding the bytes of `low_indet`. -/
def hello_written : world :=
  match vfs_write sample_md5 (cs "/r") sample_world (cs "/a") (cs "hello") 0 (sample_fi "/r/a")
      low_indet with
  | some (_, w1) => w1
  | none => sample_world

/-! ## Auxiliary facts: strings, rendering, hashing -/

theorem strcmp_self (a : CString) : strcmp a a = 0 := by
  induction a with
  | nil => rfl
  | cons x xs ih => simp [strcmp, ih]

theorem eq_of_strcmp_eq_zero : ∀ (a b : CString), strcmp a b = 0 → a = b
  | [], [], _ => rfl
  | [], _ :: _, h => by simp [strcmp] at h
  | _ :: _, [], h => by simp [strcmp] at h
  | x :: xs, y :: ys, h => by
    unfold strcmp at h
    by_cases h1 : x < y
    · simp [h1] at h
    · by_cases h2 : y < x
      · simp [h1, h2] at h
      · simp only [h1, h2, if_false] at h
        have hxy : x = y := by omega
        rw [hxy, eq_of_strcmp_eq_zero xs ys h]

theorem chain_get_none_of_absent (key : CString) (c : List entry_t)
    (h : ∀ e ∈ c, e.key ≠ key) : chain_get key c = none := by
  induction c with
  | nil => rfl
  | cons e rest ih =>
    have he : e.key ≠ key := h e (by simp)
    have hne : strcmp key e.key ≠ 0 := fun h0 => he (eq_of_strcmp_eq_zero _ _ h0).symm
    unfold chain_get
    by_cases h1 : strcmp key e.key > 0
    · simp only [h1, if_true]
      exact ih (fun e2 he2 => h e2 (by simp [he2]))
    · simp [h1, hne]

theorem hex_digit_lt (d : Nat) (h : d < 16) : hex_digit d < 128 := by
  unfold hex_digit; split <;> omega

theorem hex_digits_lt (fuel v : Nat) : ∀ x ∈ hex_digits fuel v, x < 128 := by
  induction fuel generalizing v with
  | zero => simp [hex_digits]
  | succ n ih =>
    intro x hx
    unfold hex_digits at hx
    by_cases hv : v < 16
    · simp only [hv, if_true, List.mem_singleton] at hx
      rw [hx]; exact hex_digit_lt v hv
    · simp only [hv, if_false, List.mem_append, List.mem_singleton] at hx
      rcases hx with hx | hx
      · exact ih _ x hx
      · rw [hx]; exact hex_digit_lt _ (Nat.mod_lt _ (by decide))

theorem getD_lt_of_all_lt (l : List Nat) (i : Nat) (h : ∀ x ∈ l, x < 128) : l.getD i 0 < 128 := by
  by_cases hi : i < l.length
  · rw [List.getD_eq_getElem l 0 hi]
    exact h _ (List.getElem_mem hi)
  · rw [List.getD_eq_default l 0 (by omega)]
    decide

theorem sprintf_02x_lt (b : Nat) : ∀ x ∈ sprintf_02x b, x < 128 := by
  intro x hx
  unfold sprintf_02x at hx
  simp only at hx
  split at hx
  · rcases List.mem_cons.mp hx with h | h
    · omega
    · exact hex_digits_lt _ _ x h
  · exact hex_digits_lt _ _ x hx

theorem get_md5_sum_formatted_lt (md : List Nat) : ∀ x ∈ get_md5_sum_formatted md, x < 128 := by
  intro x hx
  unfold get_md5_sum_formatted at hx
  rcases List.mem_flatMap.mp hx with ⟨i, _, hi⟩
  simp only [List.mem_cons, List.mem_singleton, List.not_mem_nil, or_false] at hi
  rcases hi with h | h <;> rw [h] <;> exact getD_lt_of_all_lt _ _ (sprintf_02x_lt _)

theorem get_md5_sum_formatted_length (md : List Nat) : (get_md5_sum_formatted md).length = 32 := by
  unfold get_md5_sum_formatted
  have : List.range MD5_DIGEST_LENGTH = [0,1,2,3,4,5,6,7,8,9,10,11,12,13,14,15] := by decide
  rw [this]
  simp [List.flatMap]

theorem hash_step_lt (h c : Nat) (hc : c % 256 < 128) :
    (h * 256 % 2 ^ 64 + char_to_ulong c) % 2 ^ 64 < ULONG_MAX := by
  unfold char_to_ulong ULONG_MAX
  simp only [hc, if_true]
  omega

theorem ht_hash_loop_agree (key : CString) :
    ∀ (j h1 h2 : Nat), 8 ≤ j + key.length → h1 < ULONG_MAX → h2 < ULONG_MAX →
      (∀ c ∈ key, c < 128) →
      h1 * 256 ^ (8 - j) % 2 ^ 64 = h2 * 256 ^ (8 - j) % 2 ^ 64 →
      ht_hash_loop h1 key = ht_hash_loop h2 key := by
  induction key with
  | nil =>
    intro j h1 h2 hj hl1 hl2 _ hag
    have hj8 : 8 - j = 0 := by simp at hj; omega
    rw [hj8] at hag
    unfold ULONG_MAX at hl1 hl2
    simp only [ht_hash_loop]
    omega
  | cons c rest ih =>
    intro j h1 h2 hj hl1 hl2 hch hag
    have hc : c % 256 < 128 := by
      have := hch c (by simp)
      omega
    simp only [ht_hash_loop, hl1, hl2, if_true]
    apply ih (j + 1)
    · simp at hj ⊢; omega
    · exact hash_step_lt h1 c hc
    · exact hash_step_lt h2 c hc
    · exact fun x hx => hch x (by simp [hx])
    · by_cases hj8 : 8 ≤ j
      · have e0 : 8 - j = 0 := by omega
        rw [e0] at hag
        have : h1 = h2 := by
          unfold ULONG_MAX at hl1 hl2
          omega
        rw [this]
      · have e1 : 8 - j = (8 - (j + 1)) + 1 := by omega
        rw [e1, pow_succ] at hag
        generalize 256 ^ (8 - (j + 1)) = P at hag ⊢
        have key1 : ∀ h : Nat, (h * 256 % 2 ^ 64 + char_to_ulong c) % 2 ^ 64 * P % 2 ^ 64
            = (h * (P * 256) % 2 ^ 64 + char_to_ulong c * P) % 2 ^ 64 := by
          intro h
          have a1 : (h * 256 % 2 ^ 64 + char_to_ulong c) % 2 ^ 64 * P % 2 ^ 64
              = (h * 256 % 2 ^ 64 + char_to_ulong c) * P % 2 ^ 64 := by
            rw [Nat.mod_mul_mod]
          rw [a1, Nat.add_mul, Nat.add_mod, Nat.mod_mul_mod]
          have a2 : h * 256 * P = h * (P * 256) := by ring
          rw [a2]
          conv_rhs => rw [Nat.add_mod, Nat.mod_mod]
        rw [key1 h1, key1 h2, hag]

theorem ht_hash_indep (t : hashtable_t) (key : CString) (h1 h2 : Nat)
    (hlen : 8 ≤ key.length) (hch : ∀ c ∈ key, c < 128)
    (hl1 : h1 < ULONG_MAX) (hl2 : h2 < ULONG_MAX) :
    ht_hash t key h1 = ht_hash t key h2 := by
  unfold ht_hash
  rw [ht_hash_loop_agree key 0 h1 h2 (by omega) hl1 hl2 hch]
  have : (256 : Nat) ^ (8 - 0) = 2 ^ 64 := by norm_num
  rw [this, Nat.mul_mod_left, Nat.mul_mod_left]

theorem chain_get_chain_set (key value : CString) (c : List entry_t) :
    chain_get key (chain_set key value c) = some value := by
  induction c with
  | nil => simp [chain_set, chain_get, strcmp_self]
  | cons e rest ih =>
    unfold chain_set
    by_cases h1 : strcmp key e.key > 0
    · simp [h1, chain_get, ih]
    · by_cases h2 : strcmp key e.key = 0
      · simp [h2, chain_get]
      · simp [h1, h2, chain_get, strcmp_self]

theorem ht_create_wf (size : Int) (t : hashtable_t) (h : ht_create size = some t) : ht_wf t := by
  unfold ht_create at h
  split at h
  · simp at h
  · simp only [Option.some.injEq] at h
    subst h
    constructor
    · simp
    · simp only; omega

theorem ht_set_wf (t : hashtable_t) (key value : CString) (h : Nat) (hwf : ht_wf t) :
    ht_wf (ht_set t key value h) := by
  unfold ht_wf ht_set at *
  simpa using hwf

theorem ht_hash_lt (t : hashtable_t) (key : CString) (h : Nat) (hwf : ht_wf t) :
    ht_hash t key h < t.table.length := by
  unfold ht_hash
  rw [hwf.1]
  exact Nat.mod_lt _ hwf.2

theorem ht_get_ht_set (t : hashtable_t) (key value : CString) (h1 h2 : Nat) (hwf : ht_wf t)
    (hb : ht_hash t key h1 = ht_hash t key h2) :
    ht_get (ht_set t key value h1) key h2 = some value := by
  have hlt := ht_hash_lt t key h1 hwf
  unfold ht_get
  have e : ht_hash (ht_set t key value h1) key h2 = ht_hash t key h1 := by
    rw [hb]; rfl
  rw [e]
  unfold ht_set
  simp only
  rw [List.getD_eq_getElem _ _ (by simpa using hlt)]
  simp [chain_get_chain_set]

theorem ht_get_none_of_absent (t : hashtable_t) (key : CString) (h : Nat)
    (habs : ∀ c ∈ t.table, ∀ e ∈ c, e.key ≠ key) : ht_get t key h = none := by
  unfold ht_get
  apply chain_get_none_of_absent
  by_cases hi : ht_hash t key h < t.table.length
  · rw [List.getD_eq_getElem _ _ hi]
    exact habs _ (List.getElem_mem hi)
  · rw [List.getD_eq_default _ _ (by omega)]
    simp

theorem ht_create_absent (size : Int) (t : hashtable_t) (h : ht_create size = some t)
    (key : CString) : ∀ c ∈ t.table, ∀ e ∈ c, e.key ≠ key := by
  unfold ht_create at h
  split at h
  · simp at h
  · simp only [Option.some.injEq] at h
    subst h
    intro c hc e he
    simp only [List.mem_replicate] at hc
    rw [hc.2] at he
    simp at he

/-! ## Auxiliary facts: memory and reads -/

theorem pread_length (fs : filesys) (fd : Fd) (size offset : Nat) (raw : List Nat)
    (h : pread fs fd size offset = .ok raw) : raw.length ≤ size := by
  unfold pread at h
  split at h
  · simp at h
  · split at h
    · simp at h
    · simp only [Except.ok.injEq] at h
      rw [← h]
      simp [List.length_take]

theorem load_length (mem : Nat → Nat) (n : Nat) : (load mem n).length = n := by
  simp [load]

theorem take_load_store (mem : Nat → Nat) (data : List Nat) (n : Nat) (h : data.length ≤ n) :
    (load (store mem data) n).take data.length = data := by
  apply List.ext_getElem
  · simp [load]; omega
  · intro i h1 h2
    simp [load, store] at h1 ⊢
    have hi : i < data.length := by omega
    simp [hi, List.getD_eq_getElem _ _ hi]

theorem decode_take (l : List Nat) (n : Nat) : (decode l).take n = decode (l.take n) := by
  simp [decode, List.map_take]


theorem scan_back_spec (s : CString) (k : Nat) :
    (scan_back s k = -1 ∧ ∀ j, j ≤ k → s.getD j 0 ≠ 47) ∨
    (∃ i : Nat, scan_back s k = (i : Int) ∧ i ≤ k ∧ s.getD i 0 = 47 ∧
      ∀ j, i < j → j ≤ k → s.getD j 0 ≠ 47) := by
  induction k with
  | zero =>
    unfold scan_back
    by_cases h : s.getD 0 0 = 47
    · right
      refine ⟨0, by rw [if_pos h]; rfl, le_refl _, h, ?_⟩
      intro j h1 h2; omega
    · left
      refine ⟨by rw [if_neg h], ?_⟩
      intro j hj
      have : j = 0 := by omega
      rw [this]; exact h
  | succ k ih =>
    unfold scan_back
    by_cases h : s.getD (k + 1) 0 = 47
    · right
      refine ⟨k + 1, by rw [if_pos h], le_refl _, h, ?_⟩
      intro j h1 h2; omega
    · simp only [h, if_false]
      rcases ih with ⟨h1, h2⟩ | ⟨i, h1, h2, h3, h4⟩
      · left
        refine ⟨h1, ?_⟩
        intro j hj
        by_cases hjk : j ≤ k
        · exact h2 j hjk
        · have : j = k + 1 := by omega
          rw [this]; exact h
      · right
        refine ⟨i, h1, by omega, h3, ?_⟩
        intro j hj1 hj2
        by_cases hjk : j ≤ k
        · exact h4 j hj1 hjk
        · have : j = k + 1 := by omega
          rw [this]; exact h

theorem getD_append_hash_ne (L : CString) (j : Nat) (hj : L.length ≤ j) :
    (L ++ cs "_hash").getD j 0 ≠ 47 := by
  have hcs : cs "_hash" = [95, 104, 97, 115, 104] := by decide
  rw [hcs]
  rw [List.getD_append_right _ _ _ _ hj]
  generalize j - L.length = m
  match m with
  | 0 => decide
  | 1 => decide
  | 2 => decide
  | 3 => decide
  | 4 => decide
  | n + 5 => simp

/-- The split of `L ++ "_hash"` at the last slash: the number of characters up to and including it. -/
theorem split_point (L : CString) :
    ∃ n : Nat, (scan_back (L ++ cs "_hash") (L ++ cs "_hash").length + 1).toNat = n ∧
      n ≤ L.length ∧ (∀ c ∈ L.drop n, c ≠ 47) ∧ (n = 0 ∨ L.getD (n - 1) 0 = 47) := by
  rcases scan_back_spec (L ++ cs "_hash") (L ++ cs "_hash").length with ⟨h1, h2⟩ | ⟨i, h1, h2, h3, h4⟩
  · refine ⟨0, by rw [h1]; rfl, Nat.zero_le _, ?_, Or.inl rfl⟩
    intro c hc
    simp only [List.drop_zero] at hc
    obtain ⟨j, hj, hjc⟩ := List.getElem_of_mem hc
    have := h2 j (by simp; omega)
    rw [List.getD_append _ _ _ _ hj, List.getD_eq_getElem _ _ hj, hjc] at this
    exact this
  · have hi : i < L.length := by
      by_contra hcon
      exact getD_append_hash_ne L i (by omega) h3
    refine ⟨i + 1, by rw [h1]; simp, hi, ?_, Or.inr ?_⟩
    · intro c hc
      obtain ⟨j, hj, hjc⟩ := List.getElem_of_mem hc
      simp only [List.length_drop] at hj
      have := h4 (i + 1 + j) (by omega) (by simp; omega)
      rw [List.getD_append _ _ _ _ (by omega), List.getD_eq_getElem _ _ (by omega)] at this
      simp only [List.getElem_drop] at hjc
      rw [hjc] at this
      exact this
    · simp only [Nat.add_sub_cancel]
      rw [List.getD_append _ _ _ _ hi] at h3
      exact h3

theorem substr_zero_append (L suffix : CString) (n : Nat) (hle : n ≤ L.length) :
    substr (L ++ suffix) 0 n = L.take n := by
  unfold substr
  simp only [List.drop_zero, Nat.sub_zero]
  exact List.take_append_of_le_length hle

theorem substr_to_end_append (L suffix : CString) (n : Nat) (hle : n ≤ L.length) :
    substr (L ++ suffix) n (L ++ suffix).length = L.drop n ++ suffix := by
  unfold substr
  rw [List.drop_append_of_le_length hle]
  apply List.take_of_length_le
  simp only [List.length_append, List.length_drop]
  omega

theorem sidecar_shape (rootdir path : CString) :
    ∃ n : Nat, n ≤ (rootdir ++ path).length ∧ (∀ c ∈ (rootdir ++ path).drop n, c ≠ 47) ∧
      (n = 0 ∨ (rootdir ++ path).getD (n - 1) 0 = 47) ∧
      write_hash_final_folder rootdir path = (rootdir ++ path).take n ++ cs ".hash" ∧
      write_hash_final_file rootdir path =
        (rootdir ++ path).take n ++ cs ".hash" ++ cs "/" ++ ((rootdir ++ path).drop n ++ cs "_hash") ∧
      vfs_read_final_file rootdir path = write_hash_final_file rootdir path := by
  obtain ⟨n, hn, hle, hno, hsl⟩ := split_point (rootdir ++ path)
  refine ⟨n, hle, hno, hsl, ?_, ?_, ?_⟩
  · simp only [write_hash_final_folder, write_hash_path_copy, hn]
    rw [substr_zero_append _ _ _ hle]
  · simp only [write_hash_final_file, write_hash_final_folder, write_hash_path_copy, hn]
    rw [substr_zero_append _ _ _ hle, substr_to_end_append _ _ _ hle]
  · simp only [vfs_read_final_file, write_hash_final_file, write_hash_final_folder,
      write_hash_path_copy]


theorem split_last_slash (X1 X2 N1 N2 : CString) (h1 : ∀ c ∈ N1, c ≠ 47) (h2 : ∀ c ∈ N2, c ≠ 47)
    (h : X1 ++ 47 :: N1 = X2 ++ 47 :: N2) : X1 = X2 ∧ N1 = N2 := by
  rcases List.append_eq_append_iff.mp h with ⟨a, ha1, ha2⟩ | ⟨a, ha1, ha2⟩
  · cases a with
    | nil => simp at ha1 ha2; exact ⟨ha1.symm, ha2⟩
    | cons x xs =>
      simp only [List.cons_append, List.cons.injEq] at ha2
      exact absurd rfl (h1 47 (by rw [ha2.2]; simp))
  · cases a with
    | nil => simp at ha1 ha2; exact ⟨ha1, ha2.symm⟩
    | cons x xs =>
      simp only [List.cons_append, List.cons.injEq] at ha2
      exact absurd rfl (h2 47 (by rw [ha2.2]; simp))

theorem sidecar_ne_folder (r1 p1 r2 p2 : CString) :
    write_hash_final_file r1 p1 ≠ write_hash_final_folder r2 p2 := by
  obtain ⟨n1, _, _, _, _, hf1, _⟩ := sidecar_shape r1 p1
  obtain ⟨n2, _, _, _, hd2, _, _⟩ := sidecar_shape r2 p2
  rw [hf1, hd2]
  intro h
  simp only [← List.append_assoc] at h
  have h5 := (List.append_inj' h (by decide)).2
  exact absurd h5 (by decide)

theorem sidecar_ne_self (r p : CString) : write_hash_final_file r p ≠ r ++ p := by
  obtain ⟨n1, hle, _, _, _, hf1, _⟩ := sidecar_shape r p
  intro h
  have hl := congrArg List.length h
  rw [hf1] at hl
  have h1 : (cs ".hash").length = 5 := by decide
  have h2 : (cs "/").length = 1 := by decide
  have h3 : (cs "_hash").length = 5 := by decide
  simp only [List.length_append, List.length_take, List.length_drop, h1, h2, h3] at hl
  omega

theorem write_at_nil_zero (d : List Nat) : write_at [] 0 d = d := by
  unfold write_at
  by_cases h : d = []
  · simp [h]
  · simp [h]

theorem pwrite_ok (fs : filesys) (p : CString) (f : inode) (data : List Nat) (offset : Nat)
    (h : fs.files p = some f) :
    pwrite fs (some p) data offset
      = .ok (set_file fs p ⟨f.mode, write_at f.data offset data⟩, data.length) := by
  simp [pwrite, h]

theorem mkdir_files (fs : filesys) (p : CString) : (mkdir fs p).files = fs.files := by
  unfold mkdir; split <;> rfl

theorem mkdir_umask (fs : filesys) (p : CString) : (mkdir fs p).umask = fs.umask := by
  unfold mkdir; split <;> rfl

theorem mkdir_dirs_other (fs : filesys) (p q : CString) (h : q ≠ p) :
    (mkdir fs p).dirs q = fs.dirs q := by
  unfold mkdir; split
  · rfl
  · simp [h]

theorem open_files_other (fs : filesys) (p q : CString) (flags mode : Nat) (h : q ≠ p) :
    (open_ fs p flags mode).1.files q = fs.files q := by
  unfold open_
  split
  · split
    · split
      · simp [set_file, h]
      · rfl
    · rfl
  · split
    · rfl
    · split
      · simp [set_file, h]
      · rfl

theorem open_fd (fs : filesys) (p : CString) (flags mode : Nat) :
    (open_ fs p flags mode).2 = none ∨ (open_ fs p flags mode).2 = some p := by
  unfold open_
  split
  · split
    · split <;> simp
    · simp
  · split
    · split <;> simp
    · split <;> simp

theorem open_umask (fs : filesys) (p : CString) (flags mode : Nat) :
    (open_ fs p flags mode).1.umask = fs.umask := by
  unfold open_
  split
  · split
    · split <;> rfl
    · rfl
  · split
    · rfl
    · split <;> rfl

theorem open_dirs (fs : filesys) (p : CString) (flags mode : Nat) :
    (open_ fs p flags mode).1.dirs = fs.dirs := by
  unfold open_
  split
  · split
    · split <;> rfl
    · rfl
  · split
    · rfl
    · split <;> rfl

theorem pwrite_files_other (fs fs1 : filesys) (fd : Fd) (data : List Nat) (offset n : Nat)
    (q : CString) (h : pwrite fs fd data offset = .ok (fs1, n)) (hq : fd ≠ some q) :
    fs1.files q = fs.files q := by
  unfold pwrite at h
  split at h
  · simp at h
  · rename_i p
    split at h
    · simp at h
    · simp only [Except.ok.injEq, Prod.mk.injEq] at h
      rw [← h.1]
      have : q ≠ p := fun e => hq (by rw [e])
      simp [set_file, this]

theorem pwrite_umask (fs fs1 : filesys) (fd : Fd) (data : List Nat) (offset n : Nat)
    (h : pwrite fs fd data offset = .ok (fs1, n)) : fs1.umask = fs.umask ∧ fs1.dirs = fs.dirs := by
  unfold pwrite at h
  split at h
  · simp at h
  · split at h
    · simp at h
    · simp only [Except.ok.injEq, Prod.mk.injEq] at h
      rw [← h.1]
      exact ⟨rfl, rfl⟩

theorem write_hash_umask (MD5 : List Nat → List Nat) (rootdir : CString) (fs : filesys)
    (enc : Nat → Nat) (path : CString) :
    (write_hash MD5 rootdir fs enc path).umask = fs.umask := by
  unfold write_hash
  simp only
  have h1 : (if stat_ok fs (write_hash_final_folder rootdir path) = true then fs
      else mkdir fs (write_hash_final_folder rootdir path)).umask = fs.umask := by
    split
    · rfl
    · exact mkdir_umask _ _
  split
  · rename_i fs2 n heq
    rw [(pwrite_umask _ _ _ _ _ _ heq).1, open_umask, h1]
  · rw [open_umask, h1]

theorem write_hash_files_other (MD5 : List Nat → List Nat) (rootdir : CString) (fs : filesys)
    (enc : Nat → Nat) (path q : CString) (hq : q ≠ write_hash_final_file rootdir path) :
    (write_hash MD5 rootdir fs enc path).files q = fs.files q := by
  unfold write_hash
  simp only
  have h1 : (if stat_ok fs (write_hash_final_folder rootdir path) = true then fs
      else mkdir fs (write_hash_final_folder rootdir path)).files = fs.files := by
    split
    · rfl
    · exact mkdir_files _ _
  split
  · rename_i fs2 n heq
    have hfd : (open_ (if stat_ok fs (write_hash_final_folder rootdir path) = true then fs
        else mkdir fs (write_hash_final_folder rootdir path))
        (write_hash_final_file rootdir path) (O_RDWR ||| O_CREAT) 777).2 ≠ some q := by
      intro hc
      rcases open_fd _ (write_hash_final_file rootdir path) (O_RDWR ||| O_CREAT) 777 with h | h
      · rw [h] at hc; simp at hc
      · rw [h] at hc
        simp only [Option.some.injEq] at hc
        exact hq hc.symm
    rw [pwrite_files_other _ _ _ _ _ _ q heq hfd, open_files_other _ _ _ _ _ hq, h1]
  · rw [open_files_other _ _ _ _ _ hq, h1]

theorem write_hash_fresh (MD5 : List Nat → List Nat) (rootdir : CString) (fs : filesys)
    (enc : Nat → Nat) (path : CString)
    (hf : fs.files (write_hash_final_file rootdir path) = none)
    (hd : fs.dirs (write_hash_final_file rootdir path) = false) :
    (write_hash MD5 rootdir fs enc path).files (write_hash_final_file rootdir path)
      = some ⟨apply_umask 777 fs.umask, digest_at MD5 enc⟩ := by
  have hne := sidecar_ne_folder rootdir path rootdir path
  have hfs1 : ∀ fs1 : filesys, fs1.files = fs.files → fs1.umask = fs.umask →
      fs1.dirs (write_hash_final_file rootdir path) = false →
      (match pwrite (open_ fs1 (write_hash_final_file rootdir path) (O_RDWR ||| O_CREAT) 777).1
          (open_ fs1 (write_hash_final_file rootdir path) (O_RDWR ||| O_CREAT) 777).2
          (digest_at MD5 enc) 0 with
        | .ok (fs2, _) => fs2
        | .error _ => (open_ fs1 (write_hash_final_file rootdir path) (O_RDWR ||| O_CREAT) 777).1).files
        (write_hash_final_file rootdir path)
      = some ⟨apply_umask 777 fs.umask, digest_at MD5 enc⟩ := by
    intro fs1 h1 h2 h3
    have hopen : open_ fs1 (write_hash_final_file rootdir path) (O_RDWR ||| O_CREAT) 777
        = (set_file fs1 (write_hash_final_file rootdir path) ⟨apply_umask 777 fs1.umask, []⟩,
           some (write_hash_final_file rootdir path)) := by
      have hbit : (O_RDWR ||| O_CREAT).testBit 6 = true := by decide
      simp [open_, h1, hf, h3, hbit]
    rw [hopen]
    simp only
    rw [pwrite_ok _ _ ⟨apply_umask 777 fs1.umask, []⟩ _ _ (by simp [set_file])]
    simp [set_file, write_at_nil_zero, h2]
  unfold write_hash
  simp only
  apply hfs1
  · split
    · rfl
    · exact mkdir_files _ _
  · split
    · rfl
    · exact mkdir_umask _ _
  · split
    · exact hd
    · rw [mkdir_dirs_other _ _ _ hne]; exact hd

theorem write_hash_readonly (MD5 : List Nat → List Nat) (rootdir : CString) (fs : filesys)
    (enc : Nat → Nat) (path : CString) (f : inode)
    (hf : fs.files (write_hash_final_file rootdir path) = some f)
    (hm : may_write f.mode = false) :
    (write_hash MD5 rootdir fs enc path).files (write_hash_final_file rootdir path) = some f := by
  have hfs1 : ∀ fs1 : filesys, fs1.files = fs.files →
      (match pwrite (open_ fs1 (write_hash_final_file rootdir path) (O_RDWR ||| O_CREAT) 777).1
          (open_ fs1 (write_hash_final_file rootdir path) (O_RDWR ||| O_CREAT) 777).2
          (digest_at MD5 enc) 0 with
        | .ok (fs2, _) => fs2
        | .error _ => (open_ fs1 (write_hash_final_file rootdir path) (O_RDWR ||| O_CREAT) 777).1).files
        (write_hash_final_file rootdir path) = some f := by
    intro fs1 h1
    have hacc : access_ok f.mode (O_RDWR ||| O_CREAT) = false := by
      have h4 : (O_RDWR ||| O_CREAT) % 4 = 2 := by decide
      simp [access_ok, h4, hm]
    have hopen : open_ fs1 (write_hash_final_file rootdir path) (O_RDWR ||| O_CREAT) 777
        = (fs1, none) := by
      simp [open_, h1, hf, hacc]
    rw [hopen]
    simp [pwrite, h1, hf]
  unfold write_hash
  simp only
  apply hfs1
  split
  · rfl
  · exact mkdir_files _ _

theorem write_hash_dirs (MD5 : List Nat → List Nat) (rootdir : CString) (fs : filesys)
    (enc : Nat → Nat) (path q : CString) (hq : q ≠ write_hash_final_folder rootdir path) :
    (write_hash MD5 rootdir fs enc path).dirs q = fs.dirs q := by
  unfold write_hash
  simp only
  have h1 : (if stat_ok fs (write_hash_final_folder rootdir path) = true then fs
      else mkdir fs (write_hash_final_folder rootdir path)).dirs q = fs.dirs q := by
    split
    · rfl
    · exact mkdir_dirs_other _ _ _ hq
  split
  · rename_i fs2 n heq
    rw [(pwrite_umask _ _ _ _ _ _ heq).2, open_dirs, h1]
  · rw [open_dirs, h1]

theorem may_write_sidecar_mode (umask : Nat) : may_write (apply_umask 777 umask) = false := by
  unfold may_write apply_umask
  rw [Nat.testBit_xor, Nat.testBit_and]
  have : Nat.testBit 777 7 = false := by decide
  simp [this]

theorem digest_at_length (MD5 : List Nat → List Nat) (m : Nat → Nat) :
    (digest_at MD5 m).length = 32 := get_md5_sum_formatted_length _

theorem digest_at_lt (MD5 : List Nat → List Nat) (m : Nat → Nat) :
    ∀ c ∈ digest_at MD5 m, c < 128 := get_md5_sum_formatted_lt _

theorem ht_get_digest_indep (MD5 : List Nat → List Nat) (m : Nat → Nat) (t : hashtable_t)
    (h1 h2 : Nat) (hl1 : h1 < ULONG_MAX) (hl2 : h2 < ULONG_MAX) :
    ht_get t (digest_at MD5 m) h1 = ht_get t (digest_at MD5 m) h2 := by
  unfold ht_get
  rw [ht_hash_indep t (digest_at MD5 m) h1 h2 (by rw [digest_at_length]; omega)
    (digest_at_lt MD5 m) hl1 hl2]

theorem ht_get_ht_set_digest (MD5 : List Nat → List Nat) (m : Nat → Nat) (t : hashtable_t)
    (value : CString) (h1 h2 : Nat) (hwf : ht_wf t) (hl1 : h1 < ULONG_MAX) (hl2 : h2 < ULONG_MAX) :
    ht_get (ht_set t (digest_at MD5 m) value h1) (digest_at MD5 m) h2 = some value :=
  ht_get_ht_set t _ value h1 h2 hwf
    (ht_hash_indep t (digest_at MD5 m) h1 h2 (by rw [digest_at_length]; omega)
      (digest_at_lt MD5 m) hl1 hl2)

/-- The result of `vfs_write`, for any behaviour of the backing write, when
the uninitialised `hashval` of its two lookups is not `ULONG_MAX`. -/
theorem vfs_write_with_eq (pw : filesys → Fd → List Nat → Nat → Except Nat (filesys × Nat))
    (MD5 : List Nat → List Nat) (rootdir : CString) (w : world) (path : CString)
    (buf : List Nat) (offset : Nat) (fi : fuse_file_info) (u : write_indet)
    (hc : u.hashval_check < ULONG_MAX) (hg : u.hashval_get < ULONG_MAX) :
    vfs_write_with pw MD5 rootdir w path buf offset fi u =
      match pw w.fs fi.fh
        (vfs_write_payload
          (ht_get w.hashtable (digest_at MD5 (encrypted_mem buf u.heap)) u.hashval_check).isSome
          buf u) offset with
      | .ok (fs1, n) =>
        some ((n : Int), ⟨write_hash MD5 rootdir fs1 (encrypted_mem buf u.heap) path,
          ht_set w.hashtable (digest_at MD5 (encrypted_mem buf u.heap))
            (match ht_get w.hashtable (digest_at MD5 (encrypted_mem buf u.heap)) u.hashval_check with
              | none => rootdir ++ path
              | some val => val ++ cs ":" ++ (rootdir ++ path)) u.hashval_set⟩)
      | .error e =>
        some (vfs_error e, ⟨write_hash MD5 rootdir w.fs (encrypted_mem buf u.heap) path,
          ht_set w.hashtable (digest_at MD5 (encrypted_mem buf u.heap))
            (match ht_get w.hashtable (digest_at MD5 (encrypted_mem buf u.heap)) u.hashval_check with
              | none => rootdir ++ path
              | some val => val ++ cs ":" ++ (rootdir ++ path)) u.hashval_set⟩) := by
  have hgc := ht_get_digest_indep MD5 (encrypted_mem buf u.heap) w.hashtable
    u.hashval_get u.hashval_check hg hc
  unfold vfs_write_with check_hash
  simp only [hgc]
  cases hold : ht_get w.hashtable (digest_at MD5 (encrypted_mem buf u.heap)) u.hashval_check with
  | none =>
    simp only [if_true, Option.isSome_none]
  | some val =>
    simp only [Option.isSome_some]
    split <;> simp_all

/-- The result of `vfs_write` when the uninitialised `hashval` of its two lookups is not `ULONG_MAX`. -/
theorem vfs_write_eq (MD5 : List Nat → List Nat) (rootdir : CString) (w : world) (path : CString)
    (buf : List Nat) (offset : Nat) (fi : fuse_file_info) (u : write_indet)
    (hc : u.hashval_check < ULONG_MAX) (hg : u.hashval_get < ULONG_MAX) :
    vfs_write MD5 rootdir w path buf offset fi u =
      match pwrite w.fs fi.fh
        (vfs_write_payload
          (ht_get w.hashtable (digest_at MD5 (encrypted_mem buf u.heap)) u.hashval_check).isSome
          buf u) offset with
      | .ok (fs1, n) =>
        some ((n : Int), ⟨write_hash MD5 rootdir fs1 (encrypted_mem buf u.heap) path,
          ht_set w.hashtable (digest_at MD5 (encrypted_mem buf u.heap))
            (match ht_get w.hashtable (digest_at MD5 (encrypted_mem buf u.heap)) u.hashval_check with
              | none => rootdir ++ path
              | some val => val ++ cs ":" ++ (rootdir ++ path)) u.hashval_set⟩)
      | .error e =>
        some (vfs_error e, ⟨write_hash MD5 rootdir w.fs (encrypted_mem buf u.heap) path,
          ht_set w.hashtable (digest_at MD5 (encrypted_mem buf u.heap))
            (match ht_get w.hashtable (digest_at MD5 (encrypted_mem buf u.heap)) u.hashval_check with
              | none => rootdir ++ path
              | some val => val ++ cs ":" ++ (rootdir ++ path)) u.hashval_set⟩) :=
  vfs_write_with_eq pwrite MD5 rootdir w path buf offset fi u hc hg

theorem find_colon_no_colon (L : CString) (h : ∀ c ∈ L, c ≠ 58) : find_colon L = L.length := by
  induction L with
  | nil => rfl
  | cons x xs ih =>
    have hx : x ≠ 58 := h x (by simp)
    simp [find_colon, hx, ih (fun c hc => h c (by simp [hc]))]

theorem find_colon_append (L rest : CString) (h : ∀ c ∈ L, c ≠ 58) :
    find_colon (L ++ 58 :: rest) = L.length := by
  induction L with
  | nil => simp [find_colon]
  | cons x xs ih =>
    have hx : x ≠ 58 := h x (by simp)
    simp [find_colon, hx, ih (fun c hc => h c (by simp [hc]))]

/-- The first element of a colon-joined value that starts with a colon-free location. -/
theorem first_location (L val : CString) (h : ∀ c ∈ L, c ≠ 58)
    (hv : val = L ∨ ∃ rest, val = L ++ 58 :: rest) :
    substr val 0 (find_colon val) = L := by
  rcases hv with hv | ⟨rest, hv⟩
  · rw [hv, find_colon_no_colon L h]
    simp [substr]
  · rw [hv, find_colon_append L rest h]
    simp [substr]

theorem vfs_write_known (MD5 : List Nat → List Nat) (rootdir : CString) (w : world)
    (r : write_req) (val : CString) (hwf : ht_wf w.hashtable)
    (hj : r.u.hashval_check < ULONG_MAX ∧ r.u.hashval_set < ULONG_MAX ∧ r.u.hashval_get < ULONG_MAX)
    (hval : ∀ hv, hv < ULONG_MAX →
      ht_get w.hashtable (digest_at MD5 (encrypted_mem r.buf r.u.heap)) hv = some val) :
    ∃ ret w1, vfs_write MD5 rootdir w r.path r.buf r.offset r.fi r.u = some (ret, w1) ∧
      ht_wf w1.hashtable ∧
      ∀ hv, hv < ULONG_MAX →
        ht_get w1.hashtable (digest_at MD5 (encrypted_mem r.buf r.u.heap)) hv
          = some (val ++ cs ":" ++ (rootdir ++ r.path)) := by
  rw [vfs_write_eq MD5 rootdir w r.path r.buf r.offset r.fi r.u hj.1 hj.2.2]
  rw [hval _ hj.1]
  simp only [Option.isSome_some]
  cases hp : pwrite w.fs r.fi.fh (vfs_write_payload true r.buf r.u) r.offset with
  | error e =>
    exact ⟨_, _, rfl, ht_set_wf _ _ _ _ hwf,
      fun hv hhv => ht_get_ht_set_digest MD5 _ _ _ _ _ hwf hj.2.1 hhv⟩
  | ok x =>
    obtain ⟨fs1, n⟩ := x
    exact ⟨_, _, rfl, ht_set_wf _ _ _ _ hwf,
      fun hv hhv => ht_get_ht_set_digest MD5 _ _ _ _ _ hwf hj.2.1 hhv⟩

theorem vfs_write_seq_known (MD5 : List Nat → List Nat) (rootdir L d : CString)
    (rs : List write_req) :
    ∀ (w : world) (val : CString), ht_wf w.hashtable →
      (∀ hv, hv < ULONG_MAX → ht_get w.hashtable d hv = some val) →
      (val = L ∨ ∃ rest, val = L ++ 58 :: rest) →
      (∀ r ∈ rs, digest_at MD5 (encrypted_mem r.buf r.u.heap) = d) →
      (∀ r ∈ rs, r.u.hashval_check < ULONG_MAX ∧ r.u.hashval_set < ULONG_MAX ∧
        r.u.hashval_get < ULONG_MAX) →
      ∃ wn val1, vfs_write_seq MD5 rootdir w rs = some wn ∧
        (∀ hv, hv < ULONG_MAX → ht_get wn.hashtable d hv = some val1) ∧
        (val1 = L ∨ ∃ rest, val1 = L ++ 58 :: rest) := by
  induction rs with
  | nil =>
    intro w val _ hval hshape _ _
    exact ⟨w, val, rfl, hval, hshape⟩
  | cons r rs ih =>
    intro w val hwf hval hshape hd hj
    have hdr := hd r (by simp)
    obtain ⟨ret, w1, hw, hwf1, hget1⟩ := vfs_write_known MD5 rootdir w r val hwf (hj r (by simp))
      (by rw [hdr]; exact hval)
    rw [hdr] at hget1
    have hshape1 : (val ++ cs ":" ++ (rootdir ++ r.path) = L ∨
        ∃ rest, val ++ cs ":" ++ (rootdir ++ r.path) = L ++ 58 :: rest) := by
      right
      have hc : cs ":" = [58] := by decide
      rcases hshape with h | ⟨rest, h⟩
      · exact ⟨rootdir ++ r.path, by rw [h, hc]; simp⟩
      · exact ⟨rest ++ 58 :: (rootdir ++ r.path), by rw [h, hc]; simp⟩
    obtain ⟨wn, val1, hseq, hgetn, hshapen⟩ := ih w1 _ hwf1 hget1 hshape1
      (fun r2 h2 => hd r2 (by simp [h2])) (fun r2 h2 => hj r2 (by simp [h2]))
    refine ⟨wn, val1, ?_, hgetn, hshapen⟩
    simp only [vfs_write_seq, hw]
    exact hseq

theorem vfs_write_novel_step (MD5 : List Nat → List Nat) (rootdir : CString) (w : world)
    (r : write_req) (hwf : ht_wf w.hashtable)
    (hj : r.u.hashval_check < ULONG_MAX ∧ r.u.hashval_set < ULONG_MAX ∧ r.u.hashval_get < ULONG_MAX)
    (hnovel : ∀ c ∈ w.hashtable.table, ∀ e ∈ c,
      e.key ≠ digest_at MD5 (encrypted_mem r.buf r.u.heap)) :
    ∃ ret w1, vfs_write MD5 rootdir w r.path r.buf r.offset r.fi r.u = some (ret, w1) ∧
      ht_wf w1.hashtable ∧
      ∀ hv, hv < ULONG_MAX →
        ht_get w1.hashtable (digest_at MD5 (encrypted_mem r.buf r.u.heap)) hv
          = some (rootdir ++ r.path) := by
  rw [vfs_write_eq MD5 rootdir w r.path r.buf r.offset r.fi r.u hj.1 hj.2.2]
  rw [ht_get_none_of_absent _ _ _ hnovel]
  simp only [Option.isSome_none]
  cases hp : pwrite w.fs r.fi.fh (vfs_write_payload false r.buf r.u) r.offset with
  | error e =>
    exact ⟨_, _, rfl, ht_set_wf _ _ _ _ hwf,
      fun hv hhv => ht_get_ht_set_digest MD5 _ _ _ _ _ hwf hj.2.1 hhv⟩
  | ok x =>
    obtain ⟨fs1, n⟩ := x
    exact ⟨_, _, rfl, ht_set_wf _ _ _ _ hwf,
      fun hv hhv => ht_get_ht_set_digest MD5 _ _ _ _ _ hwf hj.2.1 hhv⟩

theorem vfs_read_redirect_eq (MD5 : List Nat → List Nat) (rootdir : CString) (w : world)
    (path : CString) (buf : Nat → Nat) (size offset : Nat) (fi : fuse_file_info) (hv : Nat)
    (raw bytes val : List Nat)
    (hraw : pread w.fs fi.fh size offset = .ok raw)
    (hside : fopen_rb w.fs (vfs_read_final_file rootdir path) = some bytes)
    (hmis : digest_at MD5 (store buf raw) ≠ as_cstring bytes)
    (hidx : ht_get w.hashtable (as_cstring bytes) hv = some val) :
    ∃ r, vfs_read MD5 rootdir w path buf size offset fi hv = some r ∧
      match pread (open_ w.fs (substr val 0 (find_colon val)) fi.flags 0).1
          (open_ w.fs (substr val 0 (find_colon val)) fi.flags 0).2 size offset with
      | .ok raw2 => r.retstat = (raw2.length : Int) ∧ r.buf.take raw2.length = decode raw2 ∧
          r.buf.length = size
      | .error _ => r.retstat = -1 := by
  have hne : strcmp (digest_at MD5 (store buf raw)) (as_cstring bytes) ≠ 0 :=
    fun h0 => hmis (eq_of_strcmp_eq_zero _ _ h0)
  unfold vfs_read
  simp only [hraw, hside, hne, if_false, hidx]
  cases hp : pread (open_ w.fs (substr val 0 (find_colon val)) fi.flags 0).1
      (open_ w.fs (substr val 0 (find_colon val)) fi.flags 0).2 size offset with
  | error e => exact ⟨_, rfl, rfl⟩
  | ok raw2 =>
    refine ⟨_, rfl, rfl, ?_, ?_⟩
    · simp only
      rw [decode_take, take_load_store _ _ _ (pread_length _ _ _ _ _ hp)]
    · simp [decode, load]

/-- The effect of one `vfs_write` through an open backing file whose sidecar does not exist yet. -/
theorem vfs_write_step (MD5 : List Nat → List Nat) (rootdir : CString) (w : world) (path : CString)
    (buf : List Nat) (offset : Nat) (fi : fuse_file_info) (u : write_indet) (f : inode)
    (hc : u.hashval_check < ULONG_MAX) (hg : u.hashval_get < ULONG_MAX)
    (hfh : fi.fh = some (rootdir ++ path))
    (hL : w.fs.files (rootdir ++ path) = some f)
    (hsf : w.fs.files (write_hash_final_file rootdir path) = none)
    (hsd : w.fs.dirs (write_hash_final_file rootdir path) = false) :
    ∃ w1, vfs_write MD5 rootdir w path buf offset fi u = some ((buf.length : Int), w1) ∧
      w1.hashtable = ht_set w.hashtable (digest_at MD5 (encrypted_mem buf u.heap))
        (match ht_get w.hashtable (digest_at MD5 (encrypted_mem buf u.heap)) u.hashval_check with
          | none => rootdir ++ path
          | some val => val ++ cs ":" ++ (rootdir ++ path)) u.hashval_set ∧
      w1.fs.umask = w.fs.umask ∧
      w1.fs.files (rootdir ++ path) = some ⟨f.mode, write_at f.data offset
        (vfs_write_payload
          (ht_get w.hashtable (digest_at MD5 (encrypted_mem buf u.heap)) u.hashval_check).isSome
          buf u)⟩ ∧
      w1.fs.files (write_hash_final_file rootdir path)
        = some ⟨apply_umask 777 w.fs.umask, digest_at MD5 (encrypted_mem buf u.heap)⟩ ∧
      (∀ q, q ≠ rootdir ++ path → q ≠ write_hash_final_file rootdir path →
        w1.fs.files q = w.fs.files q) ∧
      (∀ q, q ≠ write_hash_final_folder rootdir path → w1.fs.dirs q = w.fs.dirs q) := by
  have hne : write_hash_final_file rootdir path ≠ rootdir ++ path := sidecar_ne_self rootdir path
  have hplen : ∀ k : Bool, (vfs_write_payload k buf u).length = buf.length := by
    intro k
    cases k <;> simp [vfs_write_payload, payload, load]
  rw [vfs_write_eq MD5 rootdir w path buf offset fi u hc hg, hfh, pwrite_ok _ _ f _ _ hL]
  simp only [hplen]
  refine ⟨_, rfl, rfl, ?_, ?_, ?_, ?_, ?_⟩
  · simp only
    rw [write_hash_umask]; rfl
  · simp only
    rw [write_hash_files_other _ _ _ _ _ _ hne.symm]
    simp [set_file]
  · simp only
    rw [write_hash_fresh _ _ _ _ _ (by simp [set_file, hne, hsf]) (by simpa [set_file] using hsd)]
    rfl
  · intro q hq1 hq2
    simp only
    rw [write_hash_files_other _ _ _ _ _ _ hq2]
    simp [set_file, hq1]
  · intro q hq
    simp only
    rw [write_hash_dirs _ _ _ _ _ _ hq]
    rfl

theorem load_store_append (mem : Nat → Nat) (data extra : List Nat) :
    load (store mem (data ++ extra)) data.length = data := by
  apply List.ext_getElem
  · simp [load]
  · intro i h1 h2
    have h3 : i < (data ++ extra).length := by simp; omega
    simp only [load, List.getElem_map, List.getElem_range, store, h3, if_true]
    rw [List.getD_eq_getElem _ _ h3, List.getElem_append_left h2]

theorem read_back (old data : List Nat) (offset : Nat) :
    ((write_at old offset data).drop offset).take data.length = data := by
  unfold write_at
  by_cases h : data = []
  · simp [h]
  · simp only [h, if_false]
    have hl : ((old ++ List.replicate (offset - old.length) 0).take offset).length = offset := by
      simp only [List.length_take, List.length_append, List.length_replicate]
      omega
    rw [List.append_assoc, List.drop_append_of_le_length (by omega), List.drop_of_length_le (by omega)]
    simp

theorem hex_digit_ge (d : Nat) : 48 ≤ hex_digit d := by
  unfold hex_digit; split <;> omega

theorem hex_digits_ge (fuel v : Nat) : ∀ x ∈ hex_digits fuel v, 48 ≤ x := by
  induction fuel generalizing v with
  | zero => simp [hex_digits]
  | succ n ih =>
    intro x hx
    unfold hex_digits at hx
    by_cases hv : v < 16
    · simp only [hv, if_true, List.mem_singleton] at hx
      rw [hx]; exact hex_digit_ge v
    · simp only [hv, if_false, List.mem_append, List.mem_singleton] at hx
      rcases hx with hx | hx
      · exact ih _ x hx
      · rw [hx]; exact hex_digit_ge _

theorem hex_digits_length_pos (fuel v : Nat) : 0 < (hex_digits (fuel + 1) v).length := by
  unfold hex_digits
  split <;> simp

theorem sprintf_02x_length (b : Nat) : 2 ≤ (sprintf_02x b).length := by
  unfold sprintf_02x
  simp only
  split
  · have h8 : 0 < (hex_digits 8 (char_to_uint b)).length := hex_digits_length_pos 7 _
    simp only [List.length_cons]
    omega
  · omega

theorem sprintf_02x_ge (b : Nat) : ∀ x ∈ sprintf_02x b, 48 ≤ x := by
  intro x hx
  unfold sprintf_02x at hx
  simp only at hx
  split at hx
  · rcases List.mem_cons.mp hx with h | h
    · omega
    · exact hex_digits_ge _ _ x h
  · exact hex_digits_ge _ _ x hx

theorem get_md5_sum_formatted_ne_zero (md : List Nat) :
    ∀ x ∈ get_md5_sum_formatted md, x ≠ 0 := by
  intro x hx
  unfold get_md5_sum_formatted at hx
  rcases List.mem_flatMap.mp hx with ⟨i, _, hi⟩
  have hlen := sprintf_02x_length (md.getD i 0)
  simp only [List.mem_cons, List.mem_singleton, List.not_mem_nil, or_false] at hi
  rcases hi with h | h
  · rw [h, List.getD_eq_getElem _ _ (by omega)]
    have := sprintf_02x_ge (md.getD i 0) _ (List.getElem_mem (by omega : 0 < (sprintf_02x (md.getD i 0)).length))
    omega
  · rw [h, List.getD_eq_getElem _ _ (by omega)]
    have := sprintf_02x_ge (md.getD i 0) _ (List.getElem_mem (by omega : 1 < (sprintf_02x (md.getD i 0)).length))
    omega

theorem pread_file (fs : filesys) (p : CString) (f : inode) (size offset : Nat)
    (hf : fs.files p = some f) :
    pread fs (some p) size offset = .ok ((f.data.drop offset).take size) := by
  simp [pread, hf]

theorem load_encrypted_head (b : List Nat) (heap : Nat → Nat) (h : sizeof_ptr ≤ b.length) :
    load (encrypted_mem b heap) sizeof_ptr = encode (b.take sizeof_ptr) := by
  have hl : ((encode b).take sizeof_ptr).length = sizeof_ptr := by
    simp [encode]; exact h
  have hsplit : encode b ++ [0] = (encode b).take sizeof_ptr ++ ((encode b).drop sizeof_ptr ++ [0]) := by
    rw [← List.append_assoc, List.take_append_drop]
  unfold encrypted_mem
  rw [hsplit]
  have := load_store_append heap ((encode b).take sizeof_ptr) ((encode b).drop sizeof_ptr ++ [0])
  rw [hl] at this
  rw [this]
  simp [encode, List.map_take]

theorem digest_of_head (MD5 : List Nat → List Nat) (b1 b2 : List Nat) (h1 h2 : Nat → Nat)
    (hl1 : sizeof_ptr ≤ b1.length) (hl2 : sizeof_ptr ≤ b2.length)
    (hp : b1.take sizeof_ptr = b2.take sizeof_ptr) :
    digest_at MD5 (encrypted_mem b1 h1) = digest_at MD5 (encrypted_mem b2 h2) := by
  unfold digest_at
  rw [load_encrypted_head b1 h1 hl1, load_encrypted_head b2 h2 hl2, hp]

theorem load_store_head (mem : Nat → Nat) (raw : List Nat) (h : sizeof_ptr ≤ raw.length) :
    load (store mem raw) sizeof_ptr = raw.take sizeof_ptr := by
  have hl : (raw.take sizeof_ptr).length = sizeof_ptr := by simp; exact h
  have := load_store_append mem (raw.take sizeof_ptr) (raw.drop sizeof_ptr)
  rw [List.take_append_drop, hl] at this
  exact this

theorem vfs_write_open_file (MD5 : List Nat → List Nat) (rootdir : CString) (w : world)
    (path : CString) (buf : List Nat) (offset : Nat) (fi : fuse_file_info) (u : write_indet)
    (f : inode) (hc : u.hashval_check < ULONG_MAX) (hg : u.hashval_get < ULONG_MAX)
    (hfh : fi.fh = some (rootdir ++ path)) (hL : w.fs.files (rootdir ++ path) = some f) :
    ∃ (D : List Nat) (ht : hashtable_t),
      vfs_write MD5 rootdir w path buf offset fi u = some ((buf.length : Int),
        ⟨write_hash MD5 rootdir (set_file w.fs (rootdir ++ path) ⟨f.mode, D⟩)
          (encrypted_mem buf u.heap) path, ht⟩) := by
  have hplen : ∀ k : Bool, (vfs_write_payload k buf u).length = buf.length := by
    intro k
    cases k <;> simp [vfs_write_payload, payload, load]
  rw [vfs_write_eq MD5 rootdir w path buf offset fi u hc hg, hfh, pwrite_ok _ _ f _ _ hL]
  simp only [hplen]
  exact ⟨_, _, rfl⟩

theorem colon_index_value (MD5 : List Nat → List Nat) :
    ∃ w2, vfs_write_seq MD5 (cs "/r") colon_world
        [low_req "/a:b" "hello world", low_req "/p" "hello world"] = some w2 ∧
      ∀ hv, hv < ULONG_MAX →
        ht_get w2.hashtable (digest_at MD5 (encrypted_mem (cs "hello world") low_indet.heap)) hv
          = some (cs "/r/a:b:/r/p") := by
  obtain ⟨ret1, w1, hw1, hwf1, hget1⟩ := vfs_write_novel_step MD5 (cs "/r") colon_world
    (low_req "/a:b" "hello world") ⟨rfl, by decide⟩ (by decide)
    (by intro c hc e he; revert hc; simp only [colon_world]; intro hc; simp at hc; subst hc; simp at he)
  obtain ⟨ret2, w2, hw2, _, hget2⟩ := vfs_write_known MD5 (cs "/r") w1
    (low_req "/p" "hello world") _ hwf1 (by decide) hget1
  refine ⟨w2, ?_, ?_⟩
  · simp only [vfs_write_seq, hw1, hw2]
  · intro hv hhv
    have h := hget2 hv hhv
    have e : cs "/r" ++ (low_req "/a:b" "hello world").path ++ cs ":" ++
        (cs "/r" ++ (low_req "/p" "hello world").path) = cs "/r/a:b:/r/p" := by decide
    rw [e] at h
    exact h

/-- Two writes of the same buffer of at least 7 bytes compute the same digest
string: the 8 bytes hashed are encoded bytes and, for 7 bytes, the NUL. -/
theorem digest_same_buffer (MD5 : List Nat → List Nat) (b : List Nat) (h1 h2 : Nat → Nat)
    (hl : sizeof_ptr ≤ b.length + 1) :
    digest_at MD5 (encrypted_mem b h1) = digest_at MD5 (encrypted_mem b h2) := by
  have key : ∀ h : Nat → Nat, load (encrypted_mem b h) sizeof_ptr = (encode b ++ [0]).take sizeof_ptr := by
    intro h
    have hlen : ((encode b ++ [0]).take sizeof_ptr).length = sizeof_ptr := by
      simp [encode]; exact hl
    have := load_store_append h ((encode b ++ [0]).take sizeof_ptr) ((encode b ++ [0]).drop sizeof_ptr)
    rw [List.take_append_drop, hlen] at this
    exact this
  unfold digest_at
  rw [key h1, key h2]

theorem split_at_slash (L dir name : CString) (n : Nat) (hle : n ≤ L.length)
    (hno : ∀ c ∈ L.drop n, c ≠ 47) (hsl : n = 0 ∨ L.getD (n - 1) 0 = 47)
    (hname : ∀ c ∈ name, c ≠ 47) (hsplit : L = dir ++ 47 :: name) :
    L.take n = dir ++ [47] ∧ L.drop n = name := by
  rcases hsl with h0 | hsl
  · subst h0
    have : (47 : Nat) ∈ L := by rw [hsplit]; simp
    exact absurd rfl (hno 47 (by simpa using this))
  · have hn : 0 < n := by
      by_contra hcon
      have h0 : n = 0 := by omega
      subst h0
      have : (47 : Nat) ∈ L := by rw [hsplit]; simp
      exact absurd rfl (hno 47 (by simpa using this))
    have hlt : n - 1 < L.length := by omega
    rw [List.getD_eq_getElem _ _ hlt] at hsl
    have hdec : L = L.take (n - 1) ++ 47 :: L.drop n := by
      have h1 : L.drop (n - 1) = L[n - 1] :: L.drop n := by
        have := List.drop_eq_getElem_cons hlt
        rw [this]
        congr 2
        omega
      rw [← hsl, ← h1, List.take_append_drop]
    have hboth : L.take (n - 1) ++ 47 :: L.drop n = dir ++ 47 :: name := by
      rw [← hdec]; exact hsplit
    obtain ⟨hd, hnm⟩ := split_last_slash _ _ _ _ hno hname hboth
    refine ⟨?_, hnm⟩
    have htk : L.take n = L.take (n - 1) ++ [L[n - 1]] := by
      have : n = (n - 1) + 1 := by omega
      conv_lhs => rw [this]
      rw [List.take_succ, List.getElem?_eq_getElem hlt]
      rfl
    rw [htk, hsl, hd]

theorem write_hash_stat (MD5 : List Nat → List Nat) (rootdir : CString) (fs : filesys)
    (enc : Nat → Nat) (path : CString) :
    stat_ok (write_hash MD5 rootdir fs enc path) (write_hash_final_folder rootdir path) = true := by
  have hne : write_hash_final_folder rootdir path ≠ write_hash_final_file rootdir path :=
    fun h => sidecar_ne_folder rootdir path rootdir path h.symm
  have hfiles := write_hash_files_other MD5 rootdir fs enc path _ hne
  have hdirs : (write_hash MD5 rootdir fs enc path).dirs
      = (if stat_ok fs (write_hash_final_folder rootdir path) = true then fs
          else mkdir fs (write_hash_final_folder rootdir path)).dirs := by
    unfold write_hash
    simp only
    split
    · rename_i fs2 n heq
      rw [(pwrite_umask _ _ _ _ _ _ heq).2, open_dirs]
    · rw [open_dirs]
  unfold stat_ok
  rw [hfiles, hdirs]
  by_cases h : stat_ok fs (write_hash_final_folder rootdir path) = true
  · simp only [h, if_true]
    exact h
  · simp only [h]
    unfold stat_ok at h
    simp [mkdir, stat_ok, h]

theorem twice_index_value (MD5 : List Nat → List Nat) :
    ∃ w2, vfs_write_seq MD5 (cs "/r") sample_world
        [sample_req "/a" "hello world", sample_req "/a" "hello world"] = some w2 ∧
      ∀ hv, hv < ULONG_MAX →
        ht_get w2.hashtable (digest_at MD5 (encrypted_mem (cs "hello world") sample_indet.heap)) hv
          = some (cs "/r/a:/r/a") := by
  obtain ⟨ret1, w1, hw1, hwf1, hget1⟩ := vfs_write_novel_step MD5 (cs "/r") sample_world
    (sample_req "/a" "hello world") ⟨rfl, by decide⟩ (by decide)
    (by intro c hc e he; revert hc; simp only [sample_world]; intro hc; simp at hc; subst hc; simp at he)
  obtain ⟨ret2, w2, hw2, _, hget2⟩ := vfs_write_known MD5 (cs "/r") w1
    (sample_req "/a" "hello world") _ hwf1 (by decide) hget1
  refine ⟨w2, ?_, ?_⟩
  · simp only [vfs_write_seq, hw1, hw2]
  · intro hv hhv
    have h := hget2 hv hhv
    have e : cs "/r" ++ (sample_req "/a" "hello world").path ++ cs ":" ++
        (cs "/r" ++ (sample_req "/a" "hello world").path) = cs "/r/a:/r/a" := by decide
    rw [e] at h
    exact h

theorem strcmp_swap : ∀ (a b : CString), strcmp b a = - strcmp a b
  | [], [] => by simp [strcmp]
  | [], _ :: _ => by simp [strcmp]
  | _ :: _, [] => by simp [strcmp]
  | x :: xs, y :: ys => by
    unfold strcmp
    by_cases h1 : x < y
    · have h2 : ¬ y < x := by omega
      simp [h1, h2]
    · by_cases h2 : y < x
      · simp [h1, h2]
      · simp only [h1, h2, if_false]
        exact strcmp_swap xs ys

theorem strcmp_lt_trans : ∀ (a b c : CString), strcmp a b < 0 → strcmp b c < 0 → strcmp a c < 0
  | [], [], _, h, _ => by simp [strcmp] at h
  | [], _ :: _, [], _, h => by simp [strcmp] at h
  | [], _ :: _, _ :: _, _, _ => by simp [strcmp]
  | _ :: _, [], _, h, _ => by simp [strcmp] at h
  | _ :: _, _ :: _, [], _, h => by simp [strcmp] at h
  | x :: xs, y :: ys, z :: zs, h1, h2 => by
    unfold strcmp at h1 h2 ⊢
    by_cases hxy : x < y
    · by_cases hyz : y < z
      · have : x < z := by omega
        simp [this]
      · by_cases hzy : z < y
        · simp [hyz, hzy] at h2
        · have hyz2 : y = z := by omega
          subst hyz2
          simp [hxy]
    · by_cases hyx : y < x
      · simp [hxy, hyx] at h1
      · have hxy2 : x = y := by omega
        subst hxy2
        simp only [hxy, if_false] at h1
        by_cases hxz : x < z
        · simp [hxz]
        · by_cases hzx : z < x
          · simp [hxz, hzx] at h2
          · simp only [hxz, hzx, if_false] at h2 ⊢
            exact strcmp_lt_trans xs ys zs h1 h2

theorem strcmp_pos_iff (a b : CString) : strcmp a b > 0 ↔ strcmp b a < 0 := by
  rw [strcmp_swap a b]; omega

theorem strcmp_ne_of_lt (a b : CString) (h : strcmp a b < 0) : a ≠ b := by
  intro e
  rw [e, strcmp_self] at h
  omega

theorem chain_set_keys (key value : CString) (c : List entry_t) :
    ∀ x ∈ chain_set key value c, x.key = key ∨ ∃ y ∈ c, y.key = x.key := by
  induction c with
  | nil =>
    intro x hx
    simp only [chain_set, List.mem_singleton] at hx
    left; rw [hx]
  | cons e rest ih =>
    intro x hx
    unfold chain_set at hx
    by_cases h1 : strcmp key e.key > 0
    · rw [if_pos h1] at hx
      rcases List.mem_cons.mp hx with hx | hx
      · right; exact ⟨e, by simp, by rw [hx]⟩
      · rcases ih x hx with h | ⟨y, hy, hyk⟩
        · left; exact h
        · right; exact ⟨y, by simp [hy], hyk⟩
    · by_cases h2 : strcmp key e.key = 0
      · rw [if_neg h1, if_pos h2] at hx
        rcases List.mem_cons.mp hx with hx | hx
        · right; exact ⟨e, by simp, by rw [hx]⟩
        · right; exact ⟨x, by simp [hx], rfl⟩
      · rw [if_neg h1, if_neg h2] at hx
        rcases List.mem_cons.mp hx with hx | hx
        · left; rw [hx]
        · rcases List.mem_cons.mp hx with hx | hx
          · right; exact ⟨e, by simp, by rw [hx]⟩
          · right; exact ⟨x, by simp [hx], rfl⟩

theorem chain_set_ascending (key value : CString) (c : List entry_t) (h : chain_ascending c) :
    chain_ascending (chain_set key value c) := by
  unfold chain_ascending at *
  induction c with
  | nil => simp [chain_set]
  | cons e rest ih =>
    rw [List.pairwise_cons] at h
    unfold chain_set
    by_cases h1 : strcmp key e.key > 0
    · rw [if_pos h1, List.pairwise_cons]
      refine ⟨?_, ih h.2⟩
      intro x hx
      rcases chain_set_keys key value rest x hx with hk | ⟨y, hy, hyk⟩
      · rw [hk]; exact (strcmp_pos_iff key e.key).mp h1
      · rw [← hyk]; exact h.1 y hy
    · by_cases h2 : strcmp key e.key = 0
      · rw [if_neg h1, if_pos h2, List.pairwise_cons]
        exact ⟨h.1, h.2⟩
      · rw [if_neg h1, if_neg h2]
        have hlt : strcmp key e.key < 0 := by omega
        rw [List.pairwise_cons, List.pairwise_cons]
        refine ⟨?_, h.1, h.2⟩
        intro x hx
        rcases List.mem_cons.mp hx with hx | hx
        · rw [hx]; exact hlt
        · exact strcmp_lt_trans _ _ _ hlt (h.1 x hx)

theorem chain_get_chain_set_other (key other value : CString) (hne : other ≠ key)
    (c : List entry_t) : chain_get other (chain_set key value c) = chain_get other c := by
  have hne0 : strcmp other key ≠ 0 := fun h0 => hne (eq_of_strcmp_eq_zero _ _ h0)
  induction c with
  | nil =>
    simp only [chain_set, chain_get]
    by_cases h : strcmp other key > 0
    · rw [if_pos h]
    · rw [if_neg h, if_pos hne0]
  | cons e rest ih =>
    unfold chain_set
    by_cases h1 : strcmp key e.key > 0
    · rw [if_pos h1]
      unfold chain_get
      rw [ih]
    · by_cases h2 : strcmp key e.key = 0
      · rw [if_neg h1, if_pos h2]
        unfold chain_get
        by_cases h3 : strcmp other e.key > 0
        · rw [if_pos h3, if_pos h3]
        · have h4 : strcmp other e.key ≠ 0 := by
            intro h0
            exact hne ((eq_of_strcmp_eq_zero _ _ h0).trans (eq_of_strcmp_eq_zero _ _ h2).symm)
          rw [if_neg h3, if_neg h3, if_pos h4, if_pos h4]
      · rw [if_neg h1, if_neg h2]
        have hlt : strcmp key e.key < 0 := by omega
        rw [chain_get]
        by_cases h3 : strcmp other key > 0
        · rw [if_pos h3]
        · have h5 : strcmp other key < 0 := by omega
          have h6 := strcmp_lt_trans _ _ _ h5 hlt
          have h7 : ¬ strcmp other e.key > 0 := by omega
          have h8 : strcmp other e.key ≠ 0 := by omega
          rw [if_neg h3, if_pos hne0, chain_get, if_neg h7, if_pos h8]

theorem ht_get_ht_set_other (t : hashtable_t) (key other value : CString) (h h2 : Nat)
    (hne : other ≠ key) : ht_get (ht_set t key value h) other h2 = ht_get t other h2 := by
  unfold ht_get
  have e : ht_hash (ht_set t key value h) other h2 = ht_hash t other h2 := rfl
  rw [e]
  unfold ht_set
  simp only
  by_cases hb : ht_hash t other h2 = ht_hash t key h
  · rw [hb]
    by_cases hlt : ht_hash t key h < t.table.length
    · rw [List.getD_eq_getElem _ _ (by simpa using hlt)]
      simp only [List.getElem_set_self]
      exact chain_get_chain_set_other key other value hne _
    · rw [List.getD_eq_default _ _ (by simp; omega), List.getD_eq_default _ _ (by omega)]
  · simp only [List.getD_eq_getElem?_getD]
    rw [List.getElem?_set_ne (fun e => hb e.symm)]

theorem ht_set_all_ascending (t : hashtable_t) (key value : CString) (h : Nat)
    (hasc : ∀ c ∈ t.table, chain_ascending c) :
    ∀ c ∈ (ht_set t key value h).table, chain_ascending c := by
  intro c hc
  unfold ht_set at hc
  simp only at hc
  rcases List.mem_or_eq_of_mem_set hc with hc | hc
  · exact hasc c hc
  · rw [hc]
    apply chain_set_ascending
    by_cases hlt : ht_hash t key h < t.table.length
    · rw [List.getD_eq_getElem _ _ hlt]
      exact hasc _ (List.getElem_mem hlt)
    · rw [List.getD_eq_default _ _ (by omega)]
      exact List.Pairwise.nil

theorem ht_set_seq_all_ascending (calls : List set_call) :
    ∀ t : hashtable_t, (∀ c ∈ t.table, chain_ascending c) →
      ∀ c ∈ (ht_set_seq t calls).table, chain_ascending c := by
  induction calls with
  | nil => intro t h; exact h
  | cons x rest ih =>
    intro t h
    exact ih _ (ht_set_all_ascending t x.key x.value x.hashval0 h)

theorem ht_create_all_ascending (size : Int) (t : hashtable_t) (h : ht_create size = some t) :
    ∀ c ∈ t.table, chain_ascending c := by
  unfold ht_create at h
  split at h
  · simp at h
  · simp only [Option.some.injEq] at h
    subst h
    intro c hc
    simp only [List.mem_replicate] at hc
    rw [hc.2]
    exact List.Pairwise.nil

theorem ascending_keys_nodup (c : List entry_t) (h : chain_ascending c) :
    (c.map (fun e => e.key)).Nodup := by
  unfold chain_ascending at h
  rw [List.Nodup, List.pairwise_map]
  exact h.imp (fun hlt => strcmp_ne_of_lt _ _ hlt)

theorem chain_set_present (key value : CString) (c : List entry_t) (hasc : chain_ascending c)
    (hp : ∃ e ∈ c, e.key = key) :
    (chain_set key value c).map (fun e => e.key) = c.map (fun e => e.key) ∧
    (chain_set key value c).length = c.length := by
  unfold chain_ascending at hasc
  induction c with
  | nil => obtain ⟨e, he, _⟩ := hp; simp at he
  | cons e rest ih =>
    rw [List.pairwise_cons] at hasc
    obtain ⟨x, hx, hxk⟩ := hp
    unfold chain_set
    by_cases h1 : strcmp key e.key > 0
    · rw [if_pos h1]
      have hxr : x ∈ rest := by
        rcases List.mem_cons.mp hx with hx | hx
        · rw [hx] at hxk
          rw [hxk, strcmp_self] at h1
          omega
        · exact hx
      obtain ⟨ih1, ih2⟩ := ih hasc.2 ⟨x, hxr, hxk⟩
      simp [ih1, ih2]
    · by_cases h2 : strcmp key e.key = 0
      · rw [if_neg h1, if_pos h2]
        simp
      · exfalso
        rcases List.mem_cons.mp hx with hx | hx
        · rw [hx] at hxk
          rw [hxk, strcmp_self] at h2
          exact h2 rfl
        · have := hasc.1 x hx
          rw [hxk] at this
          have := (strcmp_pos_iff key e.key).mpr this
          exact h1 this

theorem main_table_bucket (i : Nat) : main_table.table.getD i [] = [] := by
  unfold main_table
  simp only [List.getD_eq_getElem?_getD, List.getElem?_replicate]
  split <;> rfl

theorem ht_set_two_buckets (t : hashtable_t) (key x y : CString) (h1 h2 : Nat) (hwf : ht_wf t)
    (hne : ht_hash t key h1 ≠ ht_hash t key h2)
    (he1 : t.table.getD (ht_hash t key h1) [] = [])
    (he2 : t.table.getD (ht_hash t key h2) [] = []) :
    (ht_set (ht_set t key x h1) key y h2).table.getD (ht_hash t key h1) [] = [⟨key, x⟩] ∧
    (ht_set (ht_set t key x h1) key y h2).table.getD (ht_hash t key h2) [] = [⟨key, y⟩] ∧
    ht_get (ht_set t key x h1) key h2 = none := by
  have hl1 := ht_hash_lt t key h1 hwf
  have hl2 := ht_hash_lt t key h2 hwf
  have e2 : ht_hash (ht_set t key x h1) key h2 = ht_hash t key h2 := rfl
  have hmid : (ht_set t key x h1).table.getD (ht_hash t key h2) [] = [] := by
    unfold ht_set
    simp only [List.getD_eq_getElem?_getD]
    rw [List.getElem?_set_ne hne]
    rw [← List.getD_eq_getElem?_getD]
    exact he2
  have hmid1 : (ht_set t key x h1).table.getD (ht_hash t key h1) [] = [⟨key, x⟩] := by
    unfold ht_set
    simp only
    rw [List.getD_eq_getElem _ _ (by simpa using hl1)]
    simp only [List.getElem_set_self]
    rw [he1]
    rfl
  refine ⟨?_, ?_, ?_⟩
  · rw [ht_set]
    simp only [e2, List.getD_eq_getElem?_getD]
    rw [List.getElem?_set_ne (fun e => hne e.symm), ← List.getD_eq_getElem?_getD]
    exact hmid1
  · rw [ht_set]
    simp only [e2]
    rw [List.getD_eq_getElem _ _ (by
      simp only [List.length_set]
      unfold ht_set
      simpa using hl2)]
    simp only [List.getElem_set_self]
    rw [hmid]
    rfl
  · unfold ht_get
    rw [e2, hmid]
    rfl

theorem ht_hash_range (t : hashtable_t) (key : CString) (h : Nat) (hs : 0 < t.size) :
    ht_hash t key h < t.size := Nat.mod_lt _ hs

theorem main_table_created : ht_create 65536 = some main_table := rfl

set_option maxRecDepth 100000 in
theorem sprintf_02x_small : ∀ b, b < 128 → sprintf_02x b = [hex_digit (b / 16), hex_digit (b % 16)] := by
  decide

set_option maxRecDepth 100000 in
theorem sprintf_02x_negative : ∀ b, b < 256 → 128 ≤ b →
    (sprintf_02x b).getD 0 0 = 102 ∧ (sprintf_02x b).getD 1 0 = 102 := by
  decide

theorem flatMap_pair_length (a b : Nat → Nat) (n : Nat) :
    ((List.range n).flatMap (fun j => [a j, b j])).length = 2 * n := by
  induction n with
  | zero => rfl
  | succ n ih =>
    rw [List.range_succ, List.flatMap_append, List.length_append, ih]
    simp [List.flatMap]
    omega

theorem flatMap_pair_getD (a b : Nat → Nat) (n i : Nat) (hi : i < n) :
    ((List.range n).flatMap (fun j => [a j, b j])).getD (2 * i) 0 = a i ∧
    ((List.range n).flatMap (fun j => [a j, b j])).getD (2 * i + 1) 0 = b i := by
  induction n with
  | zero => omega
  | succ n ih =>
    rw [List.range_succ, List.flatMap_append]
    have hl := flatMap_pair_length a b n
    by_cases h : i < n
    · obtain ⟨h0, h1⟩ := ih h
      rw [List.getD_append _ _ _ _ (by omega), List.getD_append _ _ _ _ (by omega)]
      exact ⟨h0, h1⟩
    · have hin : i = n := by omega
      subst hin
      rw [List.getD_append_right _ _ _ _ (by omega), List.getD_append_right _ _ _ _ (by omega), hl]
      have e0 : 2 * i - 2 * i = 0 := by omega
      have e1 : 2 * i + 1 - 2 * i = 1 := by omega
      rw [e0, e1]
      simp [List.flatMap]

theorem get_md5_sum_formatted_chars (md : List Nat) (i : Nat) (hi : i < 16) :
    (get_md5_sum_formatted md).getD (2 * i) 0 = (sprintf_02x (md.getD i 0)).getD 0 0 ∧
    (get_md5_sum_formatted md).getD (2 * i + 1) 0 = (sprintf_02x (md.getD i 0)).getD 1 0 :=
  flatMap_pair_getD (fun j => (sprintf_02x (md.getD j 0)).getD 0 0)
    (fun j => (sprintf_02x (md.getD j 0)).getD 1 0) MD5_DIGEST_LENGTH i hi

theorem ht_set_seq_wf (calls : List set_call) :
    ∀ t : hashtable_t, ht_wf t → ht_wf (ht_set_seq t calls) := by
  induction calls with
  | nil => intro t h; exact h
  | cons x rest ih =>
    intro t h
    exact ih _ (ht_set_wf t x.key x.value x.hashval0 h)

theorem main_table_wf : ht_wf main_table := ⟨List.length_replicate _ _, by decide⟩

/-- With an entry value below `ULONG_MAX` the bucket of a key of two or more
characters below 128 in a table of 65536 buckets is made of its last two
characters, so it is below 32768. -/
theorem ht_hash_loop_low (key : CString) :
    ∀ h, h < ULONG_MAX → 2 ≤ key.length → (∀ c ∈ key, c < 128) →
      ht_hash_loop h key % 65536 < 32768 := by
  induction key with
  | nil => intro h _ hlen _; simp at hlen
  | cons c rest ih =>
    intro h hl hlen hch
    have hc : c < 128 := hch c (by simp)
    rcases rest with _ | ⟨b, rest2⟩
    · simp at hlen
    · have hb : b < 128 := hch b (by simp)
      have hstep := hash_step_lt h c (by omega)
      rcases rest2 with _ | ⟨d, rest3⟩
      · have hstep2 := hash_step_lt ((h * 256 % 2 ^ 64 + char_to_ulong c) % 2 ^ 64) b (by omega)
        simp only [ht_hash_loop, hl, hstep, if_true]
        have e1 : char_to_ulong c = c := by
          unfold char_to_ulong
          rw [if_pos (by omega)]
          omega
        have e2 : char_to_ulong b = b := by
          unfold char_to_ulong
          rw [if_pos (by omega)]
          omega
        rw [e1, e2]
        omega
      · simp only [ht_hash_loop, hl, if_true]
        exact ih _ hstep (by simp) (fun x hx => hch x (by simp [hx]))

theorem ht_hash_main_low (key : CString) (h : Nat) (hl : h < ULONG_MAX) (hlen : 2 ≤ key.length)
    (hch : ∀ c ∈ key, c < 128) : ht_hash main_table key h < 32768 :=
  ht_hash_loop_low key h hl hlen hch

theorem ht_hash_main_skipped (key : CString) : ht_hash main_table key ULONG_MAX = 65535 := by
  unfold ht_hash
  have : ht_hash_loop ULONG_MAX key = ULONG_MAX := by
    cases key with
    | nil => rfl
    | cons c rest => simp [ht_hash_loop]
  rw [this]
  decide

/-- In the table `main` creates, an entry stored under a digest string by a
call whose `hashval` is below `ULONG_MAX` is not found by a lookup whose
`hashval` is `ULONG_MAX`. -/
theorem ht_get_main_lost (MD5 : List Nat → List Nat) (m : Nat → Nat) (value : CString) (h : Nat)
    (hl : h < ULONG_MAX) :
    ht_get (ht_set main_table (digest_at MD5 m) value h) (digest_at MD5 m) ULONG_MAX = none := by
  have hlow := ht_hash_main_low (digest_at MD5 m) h hl (by rw [digest_at_length]; omega)
    (digest_at_lt MD5 m)
  have hskip := ht_hash_main_skipped (digest_at MD5 m)
  exact (ht_set_two_buckets main_table (digest_at MD5 m) value value h ULONG_MAX main_table_wf
    (by rw [hskip]; omega) (main_table_bucket _) (main_table_bucket _)).2.2

/-- The index after `vfs_write` into the empty table `main` creates. -/
theorem vfs_write_main_table (MD5 : List Nat → List Nat) (rootdir : CString) (fs : filesys)
    (path : CString) (buf : List Nat) (offset : Nat) (fi : fuse_file_info) (u : write_indet) :
    ∃ r w1, vfs_write MD5 rootdir ⟨fs, main_table⟩ path buf offset fi u = some (r, w1) ∧
      w1.hashtable = ht_set main_table (digest_at MD5 (encrypted_mem buf u.heap))
        (rootdir ++ path) u.hashval_set := by
  have hchk : check_hash MD5 main_table (encrypted_mem buf u.heap) u.hashval_check = 0 := by
    simp [check_hash, ht_get_none_of_absent _ _ _ (ht_create_absent _ _ main_table_created _)]
  unfold vfs_write vfs_write_with
  simp only [hchk, if_true]
  split
  · exact ⟨_, _, rfl, rfl⟩
  · exact ⟨_, _, rfl, rfl⟩

theorem decoded_byte (buf : Nat → Nat) (raw : List Nat) (size i : Nat) (hlen : raw.length ≤ size)
    (hi : i < raw.length) :
    (decode (load (store buf raw) size)).getD i 0 = (raw.getD i 0 + 251) % 256 := by
  have hs : i < size := by omega
  simp [decode, load, store, List.getD_eq_getElem?_getD, List.getElem?_range hs, hi]

theorem as_cstring_rendered (md : List Nat) :
    as_cstring (get_md5_sum_formatted md) = get_md5_sum_formatted md := by
  unfold as_cstring
  rw [List.takeWhile_eq_self_iff]
  intro x hx
  have := get_md5_sum_formatted_ne_zero _ x hx
  simpa using this

/-- The redirect branch of `vfs_read` with no index entry for the sidecar digest. -/
theorem vfs_read_null_value (MD5 : List Nat → List Nat) (rootdir : CString) (w : world)
    (path : CString) (buf : Nat → Nat) (size offset : Nat) (fi : fuse_file_info) (hashval0 : Nat)
    (raw bytes : List Nat)
    (hraw : pread w.fs fi.fh size offset = .ok raw)
    (hside : fopen_rb w.fs (vfs_read_final_file rootdir path) = some bytes)
    (hmis : digest_at MD5 (store buf raw) ≠ as_cstring bytes)
    (hidx : ht_get w.hashtable (as_cstring bytes) hashval0 = none) :
    vfs_read MD5 rootdir w path buf size offset fi hashval0 = none := by
  have hne : strcmp (digest_at MD5 (store buf raw)) (as_cstring bytes) ≠ 0 :=
    fun h0 => hmis (eq_of_strcmp_eq_zero _ _ h0)
  unfold vfs_read
  simp only [hraw, hside, hne, if_false, hidx]

theorem whole_digest_fs_read (MD5 : List Nat → List Nat) :
    pread (whole_digest_fs MD5) (sample_fi "/r/a").fh 9 0 = .ok (encode (cs "abcdefgh1")) := by
  have h : (whole_digest_fs MD5).files (cs "/r/a") = some ⟨420, encode (cs "abcdefgh1")⟩ := by
    simp [whole_digest_fs]
  have hfh : (sample_fi "/r/a").fh = some (cs "/r/a") := rfl
  rw [hfh, pread_file _ _ _ _ _ h]
  rfl

theorem whole_digest_fs_sidecar (MD5 : List Nat → List Nat) :
    fopen_rb (whole_digest_fs MD5) (vfs_read_final_file (cs "/r") (cs "/a"))
      = some (get_md5_sum_formatted (MD5 (encode (cs "abcdefgh1")))) := by
  have hp : vfs_read_final_file (cs "/r") (cs "/a") = cs "/r/.hash/a_hash" := by decide
  have h1 : cs "/r/.hash/a_hash" ≠ cs "/r/a" := by decide
  have h2 : cs "/r/.hash/a_hash" ≠ cs "/r/b" := by decide
  have h : (whole_digest_fs MD5).files (cs "/r/.hash/a_hash")
      = some ⟨777, get_md5_sum_formatted (MD5 (encode (cs "abcdefgh1")))⟩ := by
    simp [whole_digest_fs, h1, h2]
  have hm : may_read 777 = true := by decide
  rw [hp]
  unfold fopen_rb
  rw [h]
  simp only [hm, if_true]

theorem vfs_write_payload_length (known : Bool) (buf : List Nat) (u : write_indet) :
    (vfs_write_payload known buf u).length = buf.length := by
  cases known <;> simp [vfs_write_payload, payload, load]

theorem sample_world_absent (key : CString) :
    ∀ c ∈ sample_world.hashtable.table, ∀ e ∈ c, e.key ≠ key := by
  intro c hc e he
  have hc2 : c = [] := by
    simp [sample_world] at hc
    exact hc
  rw [hc2] at he
  simp at he

theorem decode_getD (l : List Nat) (i : Nat) (hi : i < l.length) :
    (decode l).getD i 0 = (l.getD i 0 + 251) % 256 := by
  simp [decode, List.getD_eq_getElem?_getD, hi]

theorem getD_of_take_decode (out raw : List Nat) (i : Nat)
    (h : out.take raw.length = decode raw) (hi : i < raw.length) :
    out.getD i 0 = (raw.getD i 0 + 251) % 256 := by
  rw [← decode_getD raw i hi, ← h]
  simp [List.getD_eq_getElem?_getD, List.getElem?_take, hi]

/-! ## Claims -/

/-- C2 (transform round trip).  For every sequence of bytes `b`, the decode
loop of `vfs_read` applied to the encode loop of `vfs_write` gives back `b`, and
both loops preserve the length. -/
theorem transform_round_trip (b : List Nat) (hb : ∀ x ∈ b, x < 256) :
    decode (encode b) = b ∧ (encode b).length = b.length ∧ (decode b).length = b.length := by
  refine ⟨?_, by simp [encode], by simp [decode]⟩
  induction b with
  | nil => rfl
  | cons x xs ih =>
    have hx : x < 256 := hb x (by simp)
    have hxs : ∀ y ∈ xs, y < 256 := fun y hy => hb y (by simp [hy])
    have ih2 := ih hxs
    simp only [encode, decode, List.map_cons, List.map_map] at ih2 ⊢
    rw [ih2]
    congr 1
    omega

theorem transform_round_trip_witness :
    (∀ x ∈ [104, 101, 108, 108, 111, 0, 255, 251], x < 256) ∧
    (decode (encode [104, 101, 108, 108, 111, 0, 255, 251]) = [104, 101, 108, 108, 111, 0, 255, 251] ∧
      (encode [104, 101, 108, 108, 111, 0, 255, 251]).length = 8 ∧
      (decode [104, 101, 108, 108, 111, 0, 255, 251]).length = 8) :=
  ⟨by decide, transform_round_trip [104, 101, 108, 108, 111, 0, 255, 251] (by decide)⟩

/-- C3 (what is hashed).  The digest string computed by `vfs_write`,
`check_hash` and `write_hash` for the buffers `abcdefgh1` and `abcdefgh2` is
the same, whatever the digest function and the surrounding memory, and so is
the one `vfs_read` computes after reading either: only the first
`sizeof (char *)` = 8 bytes are hashed.  For the 5-byte buffer `hello` the
8 bytes hashed are the 5 encoded bytes, the terminating NUL and two bytes
past the initialised part of the block. -/
theorem digest_covers_pointer_size_only :
    cs "abcdefgh1" ≠ cs "abcdefgh2" ∧
    (∀ (MD5 : List Nat → List Nat) (heap1 heap2 : Nat → Nat),
      digest_at MD5 (encrypted_mem (cs "abcdefgh1") heap1)
        = digest_at MD5 (encrypted_mem (cs "abcdefgh2") heap2)) ∧
    (∀ (MD5 : List Nat → List Nat) (buf1 buf2 : Nat → Nat),
      digest_at MD5 (store buf1 (encode (cs "abcdefgh1")))
        = digest_at MD5 (store buf2 (encode (cs "abcdefgh2")))) ∧
    (∀ heap : Nat → Nat, load (encrypted_mem (cs "hello") heap) sizeof_ptr
        = encode (cs "hello") ++ [0, heap 6, heap 7]) := by
  refine ⟨by decide, ?_, ?_, ?_⟩
  · intro MD5 heap1 heap2
    exact digest_of_head MD5 _ _ _ _ (by decide) (by decide) (by decide)
  · intro MD5 buf1 buf2
    unfold digest_at
    rw [load_store_head _ _ (by decide), load_store_head _ _ (by decide)]
    have : (encode (cs "abcdefgh1")).take sizeof_ptr = (encode (cs "abcdefgh2")).take sizeof_ptr := by
      decide
    rw [this]
  · intro heap
    simp [load, encrypted_mem, store, sizeof_ptr, List.range, List.range.loop, encode, cs]

/-- C4 (independent content).  Two buffers of at least 8 bytes that differ
only after the eighth byte, written from an empty index (65536 buckets, as
`main` creates it) through two locations: both writes return, and the index
holds a single value for the digest string of either buffer, the two
locations joined by a colon, instead of two entries with the location sets
of one element each.  The uninitialised `hashval` of every lookup is
assumed not to hold `ULONG_MAX`. -/
theorem distinct_content_shares_entry (MD5 : List Nat → List Nat) (rootdir : CString) (w0 : world)
    (rA rB : write_req) (hv : Nat)
    (hempty : ht_create 65536 = some w0.hashtable)
    (_hne : rA.buf ≠ rB.buf)
    (hlA : sizeof_ptr ≤ rA.buf.length) (hlB : sizeof_ptr ≤ rB.buf.length)
    (hp : rA.buf.take sizeof_ptr = rB.buf.take sizeof_ptr)
    (hjA : rA.u.hashval_check < ULONG_MAX ∧ rA.u.hashval_set < ULONG_MAX ∧
      rA.u.hashval_get < ULONG_MAX)
    (hjB : rB.u.hashval_check < ULONG_MAX ∧ rB.u.hashval_set < ULONG_MAX ∧
      rB.u.hashval_get < ULONG_MAX)
    (hhv : hv < ULONG_MAX) :
    ∃ ret1 w1 ret2 w2,
      vfs_write MD5 rootdir w0 rA.path rA.buf rA.offset rA.fi rA.u = some (ret1, w1) ∧
      vfs_write MD5 rootdir w1 rB.path rB.buf rB.offset rB.fi rB.u = some (ret2, w2) ∧
      ht_get w2.hashtable (digest_at MD5 (encrypted_mem rA.buf rA.u.heap)) hv
        = some (rootdir ++ rA.path ++ cs ":" ++ (rootdir ++ rB.path)) ∧
      ht_get w2.hashtable (digest_at MD5 (encrypted_mem rB.buf rB.u.heap)) hv
        = some (rootdir ++ rA.path ++ cs ":" ++ (rootdir ++ rB.path)) := by
  have hwf0 := ht_create_wf _ _ hempty
  have hd := digest_of_head MD5 rA.buf rB.buf rA.u.heap rB.u.heap hlA hlB hp
  obtain ⟨ret1, w1, hw1, hwf1, hget1⟩ := vfs_write_novel_step MD5 rootdir w0 rA hwf0 hjA
    (ht_create_absent _ _ hempty _)
  rw [hd] at hget1
  obtain ⟨ret2, w2, hw2, _, hget2⟩ := vfs_write_known MD5 rootdir w1 rB _ hwf1 hjB hget1
  refine ⟨ret1, w1, ret2, w2, hw1, hw2, ?_, hget2 hv hhv⟩
  rw [hd]
  exact hget2 hv hhv

theorem distinct_content_shares_entry_witness :
    ∃ ret1 w1 ret2 w2,
      vfs_write sample_md5 (cs "/r")
          ⟨sample_fs, ⟨(65536 : Int).toNat, List.replicate (65536 : Int).toNat []⟩⟩
          (sample_req "/a" "abcdefgh1").path (sample_req "/a" "abcdefgh1").buf
          (sample_req "/a" "abcdefgh1").offset (sample_req "/a" "abcdefgh1").fi
          (sample_req "/a" "abcdefgh1").u = some (ret1, w1) ∧
      vfs_write sample_md5 (cs "/r") w1
          (sample_req "/b" "abcdefgh2").path (sample_req "/b" "abcdefgh2").buf
          (sample_req "/b" "abcdefgh2").offset (sample_req "/b" "abcdefgh2").fi
          (sample_req "/b" "abcdefgh2").u = some (ret2, w2) ∧
      ht_get w2.hashtable (digest_at sample_md5
          (encrypted_mem (sample_req "/a" "abcdefgh1").buf (sample_req "/a" "abcdefgh1").u.heap)) 3
        = some (cs "/r" ++ (sample_req "/a" "abcdefgh1").path ++ cs ":" ++
            (cs "/r" ++ (sample_req "/b" "abcdefgh2").path)) ∧
      ht_get w2.hashtable (digest_at sample_md5
          (encrypted_mem (sample_req "/b" "abcdefgh2").buf (sample_req "/b" "abcdefgh2").u.heap)) 3
        = some (cs "/r" ++ (sample_req "/a" "abcdefgh1").path ++ cs ":" ++
            (cs "/r" ++ (sample_req "/b" "abcdefgh2").path)) :=
  distinct_content_shares_entry sample_md5 (cs "/r")
    ⟨sample_fs, ⟨(65536 : Int).toNat, List.replicate (65536 : Int).toNat []⟩⟩
    (sample_req "/a" "abcdefgh1") (sample_req "/b" "abcdefgh2") 3
    rfl (by decide) (by decide) (by decide) (by decide) (by decide) (by decide) (by decide)

/-- C5 (upsert of novel content).  What holds: for a write whose digest
string has no entry in any bucket, `check_hash` returns 0; and when `ht_hash`
finds a value other than `ULONG_MAX` in its uninitialised `hashval`, both in
the `ht_set` of the write and in the later lookup, and the digest has no byte
of 128 or more, `vfs_write` returns and the lookup of the digest returns
exactly `rootdir ++ path`.  What fails: `hashval` is never initialised.  After
a write into the empty table `main` creates, whatever the digest function
(with no digest byte of 128 or more), the content and the location, a lookup
that finds `ULONG_MAX` in `hashval` returns NULL: the entry was stored in a
bucket below 32768, the lookup goes to bucket 65535.  The last part is the
run for the text `hello world` written through `/r/a`: the lookup with
`hashval` 0 returns `/r/a`, the lookup with `ULONG_MAX` returns NULL. -/
theorem novel_entry_lookup_needs_same_bucket :
    (∀ (MD5 : List Nat → List Nat) (w : world) (buf : List Nat) (u : write_indet),
      (∀ c ∈ w.hashtable.table, ∀ e ∈ c, e.key ≠ digest_at MD5 (encrypted_mem buf u.heap)) →
      check_hash MD5 w.hashtable (encrypted_mem buf u.heap) u.hashval_check = 0) ∧
    (∀ (MD5 : List Nat → List Nat) (rootdir : CString) (w : world) (path : CString)
      (buf : List Nat) (offset : Nat) (fi : fuse_file_info) (u : write_indet) (hv : Nat),
      ht_wf w.hashtable →
      (∀ c ∈ w.hashtable.table, ∀ e ∈ c, e.key ≠ digest_at MD5 (encrypted_mem buf u.heap)) →
      digest_fits MD5 (encrypted_mem buf u.heap) = true →
      u.hashval_set < ULONG_MAX → hv < ULONG_MAX →
      ∃ r w1, vfs_write MD5 rootdir w path buf offset fi u = some (r, w1) ∧
        ht_get w1.hashtable (digest_at MD5 (encrypted_mem buf u.heap)) hv
          = some (rootdir ++ path)) ∧
    (∀ (MD5 : List Nat → List Nat) (rootdir : CString) (fs : filesys) (path : CString)
      (buf : List Nat) (offset : Nat) (fi : fuse_file_info) (u : write_indet),
      digest_fits MD5 (encrypted_mem buf u.heap) = true →
      u.hashval_set < ULONG_MAX →
      ∃ r w1, vfs_write MD5 rootdir ⟨fs, main_table⟩ path buf offset fi u = some (r, w1) ∧
        ht_get w1.hashtable (digest_at MD5 (encrypted_mem buf u.heap)) ULONG_MAX = none) ∧
    (digest_fits sample_md5 (encrypted_mem (cs "hello world") sample_indet.heap) = true ∧
      ∃ r w1, vfs_write sample_md5 (cs "/r") ⟨sample_fs, main_table⟩ (cs "/a") (cs "hello world") 0
          (sample_fi "/r/a") sample_indet = some (r, w1) ∧
        ht_get w1.hashtable (digest_at sample_md5
          (encrypted_mem (cs "hello world") sample_indet.heap)) 0 = some (cs "/r/a") ∧
        ht_get w1.hashtable (digest_at sample_md5
          (encrypted_mem (cs "hello world") sample_indet.heap)) ULONG_MAX = none) := by
  refine ⟨?_, ?_, ?_, by decide, ?_⟩
  · intro MD5 w buf u hnovel
    simp [check_hash, ht_get_none_of_absent _ _ _ hnovel]
  · intro MD5 rootdir w path buf offset fi u hv hwf hnovel _ hset hhv
    have hchk : check_hash MD5 w.hashtable (encrypted_mem buf u.heap) u.hashval_check = 0 := by
      simp [check_hash, ht_get_none_of_absent _ _ _ hnovel]
    have hget := ht_get_ht_set_digest MD5 (encrypted_mem buf u.heap) w.hashtable
      (rootdir ++ path) u.hashval_set hv hwf hset hhv
    unfold vfs_write vfs_write_with
    simp only [hchk, if_true]
    split
    · exact ⟨_, _, rfl, hget⟩
    · exact ⟨_, _, rfl, hget⟩
  · intro MD5 rootdir fs path buf offset fi u _ hset
    obtain ⟨r, w1, hw, hht⟩ := vfs_write_main_table MD5 rootdir fs path buf offset fi u
    refine ⟨r, w1, hw, ?_⟩
    rw [hht]
    exact ht_get_main_lost MD5 _ _ _ hset
  · obtain ⟨r, w1, hw, hht⟩ := vfs_write_main_table sample_md5 (cs "/r") sample_fs (cs "/a")
      (cs "hello world") 0 (sample_fi "/r/a") sample_indet
    refine ⟨r, w1, hw, ?_, ?_⟩
    · rw [hht]
      exact ht_get_ht_set_digest sample_md5 _ main_table _ _ _ main_table_wf (by decide) (by decide)
    · rw [hht]
      exact ht_get_main_lost sample_md5 _ _ _ (by decide)

/-- C6 (real or placeholder payload), the branch for known content.  When
the digest string of the buffer is already in the index and the write goes
through an open backing file whose sidecar does not exist yet, `vfs_write`
returns the size and the payload of the backing write is not empty: `size`
bytes taken from the address of the literal `""` (its NUL and the bytes that
follow it in memory) are stored in the backing file at `offset`. -/
theorem placeholder_payload_has_size_bytes (MD5 : List Nat → List Nat) (rootdir : CString)
    (w : world) (path : CString) (buf : List Nat) (offset : Nat) (fi : fuse_file_info)
    (u : write_indet) (f : inode) (val : CString)
    (hc : u.hashval_check < ULONG_MAX) (hg : u.hashval_get < ULONG_MAX)
    (hfh : fi.fh = some (rootdir ++ path))
    (hL : w.fs.files (rootdir ++ path) = some f)
    (hsf : w.fs.files (write_hash_final_file rootdir path) = none)
    (hsd : w.fs.dirs (write_hash_final_file rootdir path) = false)
    (hknown : ht_get w.hashtable (digest_at MD5 (encrypted_mem buf u.heap)) u.hashval_check
      = some val) :
    check_hash MD5 w.hashtable (encrypted_mem buf u.heap) u.hashval_check = 1 ∧
    ∃ w1, vfs_write MD5 rootdir w path buf offset fi u = some ((buf.length : Int), w1) ∧
      w1.fs.files (rootdir ++ path)
        = some ⟨f.mode, write_at f.data offset (load (store u.rodata [0]) buf.length)⟩ ∧
      (load (store u.rodata [0]) buf.length).length = buf.length ∧
      ((write_at f.data offset (load (store u.rodata [0]) buf.length)).drop offset).take buf.length
        = load (store u.rodata [0]) buf.length := by
  obtain ⟨w1, hw1, _, _, hL1, _, _, _⟩ := vfs_write_step MD5 rootdir w path buf offset fi u f hc hg
    hfh hL hsf hsd
  rw [hknown] at hL1
  simp only [Option.isSome_some, vfs_write_payload, payload, if_true] at hL1
  have hlen : (load (store u.rodata [0]) buf.length).length = buf.length := load_length _ _
  refine ⟨by simp [check_hash, hknown], w1, hw1, hL1, hlen, ?_⟩
  have := read_back f.data (load (store u.rodata [0]) buf.length) offset
  rw [hlen] at this
  exact this

theorem placeholder_payload_has_size_bytes_witness :
    check_hash sample_md5 sample_world_a.hashtable
        (encrypted_mem (cs "hello world") sample_indet.heap) sample_indet.hashval_check = 1 ∧
    ∃ w1, vfs_write sample_md5 (cs "/r") sample_world_a (cs "/b") (cs "hello world") 0
        (sample_fi "/r/b") sample_indet = some (((cs "hello world").length : Int), w1) ∧
      w1.fs.files (cs "/r" ++ cs "/b")
        = some ⟨(⟨420, []⟩ : inode).mode, write_at (⟨420, []⟩ : inode).data 0
            (load (store sample_indet.rodata [0]) (cs "hello world").length)⟩ ∧
      (load (store sample_indet.rodata [0]) (cs "hello world").length).length
        = (cs "hello world").length ∧
      ((write_at (⟨420, []⟩ : inode).data 0
          (load (store sample_indet.rodata [0]) (cs "hello world").length)).drop 0).take
          (cs "hello world").length
        = load (store sample_indet.rodata [0]) (cs "hello world").length :=
  placeholder_payload_has_size_bytes sample_md5 (cs "/r") sample_world_a (cs "/b")
    (cs "hello world") 0 (sample_fi "/r/b") sample_indet ⟨420, []⟩ (cs "/r/a")
    (by decide) (by decide) (by decide) (by decide) (by decide) (by decide) (by decide)

/-- C7 (sidecar put), two writes through the same location.  A first write
through an open backing file whose sidecar does not exist creates the sidecar
with the permission bits 777 (decimal, octal 1411: no write permission for
the owner).  A second write through the same location, of any content,
returns, and the sidecar still holds the digest string of the first write:
`open (final_file, O_RDWR | O_CREAT, 777)` fails and the `write` that follows
has no effect. -/
theorem sidecar_keeps_first_digest (MD5 : List Nat → List Nat) (rootdir : CString) (w0 : world)
    (path : CString) (b1 b2 : List Nat) (off1 off2 : Nat) (fi : fuse_file_info)
    (u1 u2 : write_indet) (f : inode)
    (hj1 : u1.hashval_check < ULONG_MAX ∧ u1.hashval_get < ULONG_MAX)
    (hj2 : u2.hashval_check < ULONG_MAX ∧ u2.hashval_get < ULONG_MAX)
    (hfh : fi.fh = some (rootdir ++ path))
    (hL : w0.fs.files (rootdir ++ path) = some f)
    (hsf : w0.fs.files (write_hash_final_file rootdir path) = none)
    (hsd : w0.fs.dirs (write_hash_final_file rootdir path) = false) :
    ∃ w1 w2, vfs_write MD5 rootdir w0 path b1 off1 fi u1 = some ((b1.length : Int), w1) ∧
      vfs_write MD5 rootdir w1 path b2 off2 fi u2 = some ((b2.length : Int), w2) ∧
      w2.fs.files (write_hash_final_file rootdir path)
        = some ⟨apply_umask 777 w0.fs.umask, digest_at MD5 (encrypted_mem b1 u1.heap)⟩ := by
  have hne : write_hash_final_file rootdir path ≠ rootdir ++ path := sidecar_ne_self rootdir path
  obtain ⟨w1, hw1, _, _, hL1, hs1, _, _⟩ := vfs_write_step MD5 rootdir w0 path b1 off1 fi u1 f
    hj1.1 hj1.2 hfh hL hsf hsd
  obtain ⟨D, ht, h2⟩ := vfs_write_open_file MD5 rootdir w1 path b2 off2 fi u2 _ hj2.1 hj2.2 hfh hL1
  refine ⟨w1, _, hw1, h2, ?_⟩
  simp only
  rw [write_hash_readonly MD5 rootdir _ _ path
    ⟨apply_umask 777 w0.fs.umask, digest_at MD5 (encrypted_mem b1 u1.heap)⟩
    (by simp [set_file, hne, hs1]) (may_write_sidecar_mode _)]

theorem sidecar_keeps_first_digest_witness :
    (∃ w1 w2, vfs_write sample_md5 (cs "/r") sample_world (cs "/a") (cs "hello world") 0
        (sample_fi "/r/a") sample_indet = some (((cs "hello world").length : Int), w1) ∧
      vfs_write sample_md5 (cs "/r") w1 (cs "/a") (cs "other bytes") 0
        (sample_fi "/r/a") sample_indet = some (((cs "other bytes").length : Int), w2) ∧
      w2.fs.files (write_hash_final_file (cs "/r") (cs "/a"))
        = some ⟨apply_umask 777 sample_world.fs.umask,
            digest_at sample_md5 (encrypted_mem (cs "hello world") sample_indet.heap)⟩) ∧
    digest_at sample_md5 (encrypted_mem (cs "other bytes") sample_indet.heap)
      ≠ digest_at sample_md5 (encrypted_mem (cs "hello world") sample_indet.heap) :=
  ⟨sidecar_keeps_first_digest sample_md5 (cs "/r") sample_world (cs "/a") (cs "hello world")
    (cs "other bytes") 0 0 (sample_fi "/r/a") sample_indet sample_indet ⟨420, []⟩
    (by decide) (by decide) (by decide) (by decide) (by decide) (by decide), by decide⟩

/-- C8 (direct read).  What holds: when the digest string the code computes
for the buffer after the backing read (of its first 8 bytes, with no byte of
128 or more in the digest) equals the C string held by the sidecar,
`vfs_read` returns the number of bytes the backing read returned, byte `i` of
the result is byte `i` read plus 251 modulo 256 (minus 5 modulo 256), the
backing store is left as it was and the result is the same whatever the index
holds; and when exactly 8 bytes are read, the digest compared is the digest
of the bytes read.  What fails: the digest compared is not the digest of the
raw bytes read when their number is not 8.  In `whole_digest_fs` the sidecar
of `/r/a` holds the digest of the nine bytes of `/r/a`; for every digest
function that tells these nine bytes from their first eight, the read of the
nine bytes does not return when the index is empty.  With the stand-in
digest function the same read with an index entry naming `/r/b` returns the
content of `/r/b`.  Then: the five bytes `hello` written by `vfs_write`
itself through `/r/a` are not read back directly either, the bytes hashed
after them differ between the write and the read; with the index emptied the
read does not return.  Last part: no digest of these runs has a byte of 128
or more. -/
theorem direct_read_hashes_eight_bytes :
    (∀ (MD5 : List Nat → List Nat) (rootdir : CString) (w : world) (path : CString)
      (buf : Nat → Nat) (size offset : Nat) (fi : fuse_file_info) (hashval0 : Nat)
      (raw bytes : List Nat),
      pread w.fs fi.fh size offset = .ok raw →
      fopen_rb w.fs (vfs_read_final_file rootdir path) = some bytes →
      digest_at MD5 (store buf raw) = as_cstring bytes →
      digest_fits MD5 (store buf raw) = true →
      ∃ r, vfs_read MD5 rootdir w path buf size offset fi hashval0 = some r ∧
        r.retstat = (raw.length : Int) ∧
        (∀ i, i < raw.length → r.buf.getD i 0 = (raw.getD i 0 + 251) % 256) ∧
        r.buf.length = size ∧ r.fs = w.fs ∧
        ∀ (ht : hashtable_t) (hv : Nat),
          vfs_read MD5 rootdir ⟨w.fs, ht⟩ path buf size offset fi hv = some r) ∧
    (∀ (MD5 : List Nat → List Nat) (buf : Nat → Nat) (raw : List Nat), raw.length = 8 →
      digest_at MD5 (store buf raw) = get_md5_sum_formatted (MD5 raw)) ∧
    (∀ (MD5 : List Nat → List Nat) (buf : Nat → Nat) (hv : Nat),
      pread (whole_digest_fs MD5) (sample_fi "/r/a").fh 9 0 = .ok (encode (cs "abcdefgh1")) ∧
      (fopen_rb (whole_digest_fs MD5) (vfs_read_final_file (cs "/r") (cs "/a"))).map as_cstring
        = some (get_md5_sum_formatted (MD5 (encode (cs "abcdefgh1")))) ∧
      (get_md5_sum_formatted (MD5 (encode (cs "abcdefgh1")))
          ≠ get_md5_sum_formatted (MD5 ((encode (cs "abcdefgh1")).take 8)) →
        vfs_read MD5 (cs "/r") ⟨whole_digest_fs MD5, main_table⟩ (cs "/a") buf 9 0
          (sample_fi "/r/a") hv = none)) ∧
    (vfs_read sample_md5 (cs "/r") ⟨whole_digest_fs sample_md5, sample_world.hashtable⟩ (cs "/a")
        (fun _ => 0) 9 0 (sample_fi "/r/a") 0 = none ∧
      (vfs_read sample_md5 (cs "/r")
        ⟨whole_digest_fs sample_md5, ht_set sample_world.hashtable
          (get_md5_sum_formatted (sample_md5 (encode (cs "abcdefgh1")))) (cs "/r/b") 0⟩ (cs "/a")
        (fun _ => 0) 9 0 (sample_fi "/r/a") 0).map (fun r => (r.retstat, r.buf))
        = some (9, cs "other one")) ∧
    ((vfs_write sample_md5 (cs "/r") sample_world (cs "/a") (cs "hello") 0 (sample_fi "/r/a")
        low_indet).isSome = true ∧
      (pread hello_written.fs (sample_fi "/r/a").fh 5 0).toOption.map decode = some (cs "hello") ∧
      vfs_read sample_md5 (cs "/r") ⟨hello_written.fs, sample_world.hashtable⟩ (cs "/a")
        (fun _ => 0) 5 0 (sample_fi "/r/a") 0 = none) ∧
    (sprintf_fits (sample_md5 (encode (cs "abcdefgh1"))) = true ∧
      digest_fits sample_md5 (store (fun _ => 0) (encode (cs "abcdefgh1"))) = true ∧
      digest_fits sample_md5 (encrypted_mem (cs "hello") low_indet.heap) = true ∧
      digest_fits sample_md5 (store (fun _ => 0) (encode (cs "hello"))) = true) := by
  refine ⟨?_, ?_, ?_, ⟨by rw [← Option.isNone_iff_eq_none]; decide, by decide⟩,
    ⟨by decide, by decide, by rw [← Option.isNone_iff_eq_none]; decide⟩, by decide⟩
  · intro MD5 rootdir w path buf size offset fi hashval0 raw bytes hraw hside hmatch _
    have hlen := pread_length _ _ _ _ _ hraw
    refine ⟨⟨(raw.length : Int), decode (load (store buf raw) size), w.fs⟩, ?_, rfl, ?_, ?_, rfl, ?_⟩
    · simp [vfs_read, hraw, hside, hmatch, strcmp_self]
    · intro i hi
      exact decoded_byte buf raw size i hlen hi
    · simp [decode, load]
    · intro ht hv
      simp [vfs_read, hraw, hside, hmatch, strcmp_self]
  · intro MD5 buf raw hlen
    unfold digest_at
    rw [load_store_head buf raw (by rw [hlen]; decide)]
    have : raw.take sizeof_ptr = raw := by
      rw [List.take_of_length_le]
      rw [hlen]; decide
    rw [this]
  · intro MD5 buf hv
    refine ⟨whole_digest_fs_read MD5, ?_, ?_⟩
    · rw [whole_digest_fs_sidecar MD5]
      simp only [Option.map_some']
      rw [as_cstring_rendered]
    · intro hne
      apply vfs_read_null_value MD5 (cs "/r") ⟨whole_digest_fs MD5, main_table⟩ (cs "/a") buf 9 0
        (sample_fi "/r/a") hv _ _ (whole_digest_fs_read MD5) (whole_digest_fs_sidecar MD5)
      · rw [as_cstring_rendered]
        unfold digest_at
        rw [load_store_head buf _ (by decide)]
        exact fun h => hne h.symm
      · exact ht_get_none_of_absent _ _ _ (ht_create_absent _ _ main_table_created _)

/-- C9 (redirect to the canonical location), as amended.  Let content with
digest string `d`, absent from the index (a table as `ht_create` and `ht_set`
build it), be written through the locations of `r1 :: rs` in this order, the
first location `rootdir ++ r1.path` containing no `:`.  Then all the writes
return, the index holds a value for `d` whose first `:`-separated element, as
`vfs_read` extracts it, is the first location; and a `vfs_read` whose backing
read succeeds and whose sidecar holds `d` while the digest string of its own
buffer differs opens exactly that first location, reads `size` bytes at the
same offset from it and, when that read succeeds, returns their decode: the
count read, and each byte read plus 251 modulo 256.  This is stated for the
calls in which `ht_hash` does not find `ULONG_MAX` in its uninitialised
`hashval` and no digest has a byte of 128 or more. -/
theorem redirect_to_first_location (MD5 : List Nat → List Nat) (rootdir : CString) (w0 : world)
    (r1 : write_req) (rs : List write_req) (d : CString)
    (hwf : ht_wf w0.hashtable)
    (hnovel : ∀ c ∈ w0.hashtable.table, ∀ e ∈ c, e.key ≠ d)
    (hd : ∀ r ∈ r1 :: rs, digest_at MD5 (encrypted_mem r.buf r.u.heap) = d)
    (hj : ∀ r ∈ r1 :: rs, r.u.hashval_check < ULONG_MAX ∧ r.u.hashval_set < ULONG_MAX ∧
      r.u.hashval_get < ULONG_MAX)
    (_hfit : ∀ r ∈ r1 :: rs, digest_fits MD5 (encrypted_mem r.buf r.u.heap) = true)
    (hcolon : ∀ c ∈ rootdir ++ r1.path, c ≠ 58) :
    ∃ wn val, vfs_write_seq MD5 rootdir w0 (r1 :: rs) = some wn ∧
      (∀ hv, hv < ULONG_MAX → ht_get wn.hashtable d hv = some val) ∧
      substr val 0 (find_colon val) = rootdir ++ r1.path ∧
      ∀ (path : CString) (buf : Nat → Nat) (size offset : Nat) (fi : fuse_file_info) (hv : Nat)
        (raw bytes raw2 : List Nat),
        hv < ULONG_MAX →
        pread wn.fs fi.fh size offset = .ok raw →
        fopen_rb wn.fs (vfs_read_final_file rootdir path) = some bytes →
        as_cstring bytes = d →
        digest_at MD5 (store buf raw) ≠ d →
        digest_fits MD5 (store buf raw) = true →
        pread (open_ wn.fs (rootdir ++ r1.path) fi.flags 0).1
          (open_ wn.fs (rootdir ++ r1.path) fi.flags 0).2 size offset = .ok raw2 →
        ∃ r, vfs_read MD5 rootdir wn path buf size offset fi hv = some r ∧
          r.retstat = (raw2.length : Int) ∧ r.buf.take raw2.length = decode raw2 ∧
          (∀ i, i < raw2.length → r.buf.getD i 0 = (raw2.getD i 0 + 251) % 256) ∧
          r.buf.length = size := by
  have hd1 := hd r1 (by simp)
  obtain ⟨ret, w1, hw1, hwf1, hget1⟩ := vfs_write_novel_step MD5 rootdir w0 r1 hwf
    (hj r1 (by simp)) (by rw [hd1]; exact hnovel)
  rw [hd1] at hget1
  obtain ⟨wn, val, hseq, hget, hshape⟩ := vfs_write_seq_known MD5 rootdir (rootdir ++ r1.path) d rs
    w1 (rootdir ++ r1.path) hwf1 hget1 (Or.inl rfl)
    (fun r hr => hd r (by simp [hr])) (fun r hr => hj r (by simp [hr]))
  have hfirst := first_location (rootdir ++ r1.path) val hcolon hshape
  refine ⟨wn, val, ?_, hget, hfirst, ?_⟩
  · simp only [vfs_write_seq, hw1]
    exact hseq
  · intro path buf size offset fi hv raw bytes raw2 hhv hraw hside hbytes hmis _ hraw2
    obtain ⟨r, hr, h⟩ := vfs_read_redirect_eq MD5 rootdir wn path buf size offset fi hv raw bytes val
      hraw hside (by rw [hbytes]; exact hmis) (by rw [hbytes]; exact hget hv hhv)
    rw [hfirst, hraw2] at h
    obtain ⟨h1, h2, h3⟩ := h
    refine ⟨r, hr, h1, h2, ?_, h3⟩
    intro i hi
    exact getD_of_take_decode r.buf raw2 i h2 hi

theorem redirect_to_first_location_witness :
    ∃ wn val, vfs_write_seq sample_md5 (cs "/r") sample_world
        (sample_req "/a" "hello world" :: [sample_req "/b" "hello world", sample_req "/c" "hello world"])
        = some wn ∧
      (∀ hv, hv < ULONG_MAX → ht_get wn.hashtable (cs "6d6a717174257c740000000000000000") hv = some val) ∧
      substr val 0 (find_colon val) = cs "/r" ++ (sample_req "/a" "hello world").path ∧
      ∀ (path : CString) (buf : Nat → Nat) (size offset : Nat) (fi : fuse_file_info) (hv : Nat)
        (raw bytes raw2 : List Nat),
        hv < ULONG_MAX →
        pread wn.fs fi.fh size offset = .ok raw →
        fopen_rb wn.fs (vfs_read_final_file (cs "/r") path) = some bytes →
        as_cstring bytes = cs "6d6a717174257c740000000000000000" →
        digest_at sample_md5 (store buf raw) ≠ cs "6d6a717174257c740000000000000000" →
        digest_fits sample_md5 (store buf raw) = true →
        pread (open_ wn.fs (cs "/r" ++ (sample_req "/a" "hello world").path) fi.flags 0).1
          (open_ wn.fs (cs "/r" ++ (sample_req "/a" "hello world").path) fi.flags 0).2 size offset
          = .ok raw2 →
        ∃ r, vfs_read sample_md5 (cs "/r") wn path buf size offset fi hv = some r ∧
          r.retstat = (raw2.length : Int) ∧ r.buf.take raw2.length = decode raw2 ∧
          (∀ i, i < raw2.length → r.buf.getD i 0 = (raw2.getD i 0 + 251) % 256) ∧
          r.buf.length = size :=
  redirect_to_first_location sample_md5 (cs "/r") sample_world (sample_req "/a" "hello world")
    [sample_req "/b" "hello world", sample_req "/c" "hello world"]
    (cs "6d6a717174257c740000000000000000") ⟨rfl, by decide⟩ (by decide) (by decide) (by decide)
    (by decide) (by decide)

/-- C9, the claim as stated fails for a first location with a colon in its
name.  Content is written through `/r/a:b` and then through `/r/p`, from an
empty index.  Whatever the digest function, the element `vfs_read` extracts
from the index value of the digest is not the first location `/r/a:b`.  With
the stand-in digest function: the index value is `/r/a:b:/r/p`, the element
extracted is `/r/a`, and the redirected read of `/p` opens `/r/a`, which does
not exist, and returns -1 instead of the 11 bytes stored in `/r/a:b`; no
digest of this run has a byte of 128 or more. -/
theorem redirect_colon_counterexample :
    (¬ ∃ (MD5 : List Nat → List Nat) (wn : world) (val : CString),
      vfs_write_seq MD5 (cs "/r") colon_world
        [low_req "/a:b" "hello world", low_req "/p" "hello world"] = some wn ∧
      ht_get wn.hashtable (digest_at MD5 (encrypted_mem (cs "hello world") low_indet.heap)) 0
        = some val ∧
      substr val 0 (find_colon val) = cs "/r" ++ cs "/a:b") ∧
    (vfs_write_seq sample_md5 (cs "/r") colon_world
        [low_req "/a:b" "hello world", low_req "/p" "hello world"]).bind
      (fun wn => ht_get wn.hashtable (cs "6d6a717174257c740000000000000000") 0)
      = some (cs "/r/a:b:/r/p") ∧
    substr (cs "/r/a:b:/r/p") 0 (find_colon (cs "/r/a:b:/r/p")) = cs "/r/a" ∧
    (vfs_write_seq sample_md5 (cs "/r") colon_world
        [low_req "/a:b" "hello world", low_req "/p" "hello world"]).bind
      (fun wn => (vfs_read sample_md5 (cs "/r") wn (cs "/p") (fun _ => 0) 11 0
        (sample_fi "/r/p") 0).map (fun r => r.retstat)) = some (-1) ∧
    (digest_fits sample_md5 (encrypted_mem (cs "hello world") low_indet.heap) = true ∧
      digest_fits sample_md5
        (store (fun _ => 0) (vfs_write_payload true (cs "hello world") low_indet)) = true) := by
  refine ⟨?_, by decide, by decide, by decide, by decide⟩
  rintro ⟨MD5, wn, val, hseq, hget, hfirst⟩
  obtain ⟨w2, hseq2, hget2⟩ := colon_index_value MD5
  rw [hseq2] at hseq
  simp only [Option.some.injEq] at hseq
  subst hseq
  rw [hget2 0 (by decide)] at hget
  simp only [Option.some.injEq] at hget
  subst hget
  revert hfirst
  decide

/-- C10 (missing sidecar).  When the backing read succeeds and no file exists
at the sidecar path, `vfs_read` does not return: `fopen` yields a NULL
stream, which is passed unchecked to `fseek`, `ftell`, `fread` and `fclose`.
No failure value is produced. -/
theorem vfs_read_missing_sidecar (MD5 : List Nat → List Nat) (rootdir : CString) (w : world)
    (path : CString) (buf : Nat → Nat) (size offset : Nat) (fi : fuse_file_info) (hashval0 : Nat)
    (raw : List Nat)
    (hraw : pread w.fs fi.fh size offset = .ok raw)
    (hmiss : w.fs.files (vfs_read_final_file rootdir path) = none) :
    vfs_read MD5 rootdir w path buf size offset fi hashval0 = none := by
  simp [vfs_read, hraw, fopen_rb, hmiss]

theorem vfs_read_missing_sidecar_witness :
    vfs_read sample_md5 (cs "/r") sample_world (cs "/a") (fun _ => 0) 11 0 (sample_fi "/r/a") 0 = none :=
  vfs_read_missing_sidecar sample_md5 (cs "/r") sample_world (cs "/a") (fun _ => 0) 11 0
    (sample_fi "/r/a") 0 [] (by decide) (by decide)

/-- C11 (broken redirect).  When the backing read succeeds, the sidecar can be
read, its digest string differs from the one computed for the buffer and has
no entry in the index (`ht_get` returns NULL), `vfs_read` does not return: the
NULL pointer is passed to `strlen` (and to `log_msg` as a format).  No
failure value is produced. -/
theorem vfs_read_broken_redirect (MD5 : List Nat → List Nat) (rootdir : CString) (w : world)
    (path : CString) (buf : Nat → Nat) (size offset : Nat) (fi : fuse_file_info) (hashval0 : Nat)
    (raw bytes : List Nat)
    (hraw : pread w.fs fi.fh size offset = .ok raw)
    (hside : fopen_rb w.fs (vfs_read_final_file rootdir path) = some bytes)
    (hmis : digest_at MD5 (store buf raw) ≠ as_cstring bytes)
    (hidx : ht_get w.hashtable (as_cstring bytes) hashval0 = none) :
    vfs_read MD5 rootdir w path buf size offset fi hashval0 = none := by
  have hne : strcmp (digest_at MD5 (store buf raw)) (as_cstring bytes) ≠ 0 :=
    fun h0 => hmis (eq_of_strcmp_eq_zero _ _ h0)
  unfold vfs_read
  simp only [hraw, hside, hne, if_false, hidx]

theorem vfs_read_broken_redirect_witness :
    vfs_read sample_md5 (cs "/r") ⟨sample_world_a.fs, sample_world.hashtable⟩ (cs "/a")
      (fun _ => 0) 4 0 (sample_fi "/r/a") 0 = none :=
  vfs_read_broken_redirect sample_md5 (cs "/r") ⟨sample_world_a.fs, sample_world.hashtable⟩
    (cs "/a") (fun _ => 0) 4 0 (sample_fi "/r/a") 0 (encode (cs "hell"))
    (cs "6d6a717174257c740000000000000000") (by decide) (by decide) (by decide) (by decide)

/-- C12 (upsert of a known digest), as amended.  For a digest string that has
the index value `val` (in a table as `ht_create` and `ht_set` build it), a
write of content with that digest through `rootdir ++ path` returns and makes
the index value `val`, a colon and `rootdir ++ path`, whether or not that
location already occurs in `val`: for the value `L` and a write through `L`
again the value becomes `L:L`.  This is stated for the calls in which
`ht_hash` does not find `ULONG_MAX` in its uninitialised `hashval` and the
digest has no byte of 128 or more. -/
theorem upsert_always_appends (MD5 : List Nat → List Nat) (rootdir : CString) (w : world)
    (path : CString) (buf : List Nat) (offset : Nat) (fi : fuse_file_info) (u : write_indet)
    (val : CString) (hwf : ht_wf w.hashtable)
    (hj : u.hashval_check < ULONG_MAX ∧ u.hashval_set < ULONG_MAX ∧ u.hashval_get < ULONG_MAX)
    (_hfit : digest_fits MD5 (encrypted_mem buf u.heap) = true)
    (hval : ∀ hv, hv < ULONG_MAX →
      ht_get w.hashtable (digest_at MD5 (encrypted_mem buf u.heap)) hv = some val) :
    ∃ ret w1, vfs_write MD5 rootdir w path buf offset fi u = some (ret, w1) ∧
      (∀ hv, hv < ULONG_MAX →
        ht_get w1.hashtable (digest_at MD5 (encrypted_mem buf u.heap)) hv
          = some (val ++ cs ":" ++ (rootdir ++ path))) ∧
      (val = rootdir ++ path → ∀ hv, hv < ULONG_MAX →
        ht_get w1.hashtable (digest_at MD5 (encrypted_mem buf u.heap)) hv
          = some (rootdir ++ path ++ cs ":" ++ (rootdir ++ path))) := by
  obtain ⟨ret, w1, hw, _, hget⟩ := vfs_write_known MD5 rootdir w ⟨path, buf, offset, fi, u⟩ val
    hwf hj hval
  refine ⟨ret, w1, hw, hget, ?_⟩
  intro hv hvl hlt
  have := hget hvl hlt
  rw [hv] at this
  exact this

theorem upsert_always_appends_witness :
    ∃ ret w1, vfs_write sample_md5 (cs "/r") sample_world_a (cs "/a") (cs "hello world") 0
        (sample_fi "/r/a") sample_indet = some (ret, w1) ∧
      (∀ hv, hv < ULONG_MAX →
        ht_get w1.hashtable (digest_at sample_md5 (encrypted_mem (cs "hello world") sample_indet.heap)) hv
          = some (cs "/r/a" ++ cs ":" ++ (cs "/r" ++ cs "/a"))) ∧
      (cs "/r/a" = cs "/r" ++ cs "/a" → ∀ hv, hv < ULONG_MAX →
        ht_get w1.hashtable (digest_at sample_md5 (encrypted_mem (cs "hello world") sample_indet.heap)) hv
          = some (cs "/r" ++ cs "/a" ++ cs ":" ++ (cs "/r" ++ cs "/a"))) :=
  upsert_always_appends sample_md5 (cs "/r") sample_world_a (cs "/a") (cs "hello world") 0
    (sample_fi "/r/a") sample_indet (cs "/r/a") ⟨rfl, by decide⟩ (by decide) (by decide)
    (fun hv hlt => by
      have h := ht_get_digest_indep sample_md5 (encrypted_mem (cs "hello world") sample_indet.heap)
        sample_world_a.hashtable hv 0 hlt (by decide)
      rw [h]
      decide)

/-- C12, the claim as stated fails.  The text `hello world` is written twice
through `/r/a`, from an empty index.  Whatever the digest function, the index
value of its digest is not `/r/a` afterwards; with the stand-in digest
function it is `/r/a:/r/a`: the location was appended although it was
already the only one recorded; the digest of this run has no byte of 128 or
more. -/
theorem upsert_twice_counterexample :
    (¬ ∃ (MD5 : List Nat → List Nat) (wn : world),
      vfs_write_seq MD5 (cs "/r") sample_world
        [sample_req "/a" "hello world", sample_req "/a" "hello world"] = some wn ∧
      ht_get wn.hashtable (digest_at MD5 (encrypted_mem (cs "hello world") sample_indet.heap)) 0
        = some (cs "/r/a")) ∧
    (vfs_write_seq sample_md5 (cs "/r") sample_world
        [sample_req "/a" "hello world"]).bind
      (fun wn => ht_get wn.hashtable (cs "6d6a717174257c740000000000000000") 0)
      = some (cs "/r/a") ∧
    (vfs_write_seq sample_md5 (cs "/r") sample_world
        [sample_req "/a" "hello world", sample_req "/a" "hello world"]).bind
      (fun wn => ht_get wn.hashtable (cs "6d6a717174257c740000000000000000") 0)
      = some (cs "/r/a:/r/a") ∧
    digest_fits sample_md5 (encrypted_mem (cs "hello world") sample_indet.heap) = true := by
  refine ⟨?_, by decide, by decide, by decide⟩
  rintro ⟨MD5, wn, hseq, hget⟩
  obtain ⟨w2, hseq2, hget2⟩ := twice_index_value MD5
  rw [hseq2] at hseq
  simp only [Option.some.injEq] at hseq
  subst hseq
  rw [hget2 0 (by decide)] at hget
  revert hget
  decide

/-- C13 (write result), as amended.  For every behaviour `pw` of the backing
`pwrite`: the backing write is asked for `size` bytes in the branch for novel
content and in the branch for known content alike; when it does not fail,
`vfs_write` returns the count the backing write returned (the full size when
all bytes were transferred, less after a short write); when it fails with
`errno` `e`, `vfs_write` returns `-e`.  This is stated for the calls in which
`ht_hash` does not find `ULONG_MAX` in its uninitialised `hashval` and the
digest has no byte of 128 or more. -/
theorem vfs_write_result (pw : filesys → Fd → List Nat → Nat → Except Nat (filesys × Nat))
    (MD5 : List Nat → List Nat) (rootdir : CString) (w : world)
    (path : CString) (buf : List Nat) (offset : Nat) (fi : fuse_file_info) (u : write_indet)
    (hc : u.hashval_check < ULONG_MAX) (hg : u.hashval_get < ULONG_MAX)
    (_hfit : digest_fits MD5 (encrypted_mem buf u.heap) = true) :
    (∀ known : Bool, (vfs_write_payload known buf u).length = buf.length) ∧
    (∀ fs1 n, pw w.fs fi.fh (vfs_write_payload
        (decide (check_hash MD5 w.hashtable (encrypted_mem buf u.heap) u.hashval_check ≠ 0))
        buf u) offset = .ok (fs1, n) →
      ∃ w1, vfs_write_with pw MD5 rootdir w path buf offset fi u = some ((n : Int), w1)) ∧
    (∀ e, pw w.fs fi.fh (vfs_write_payload
        (decide (check_hash MD5 w.hashtable (encrypted_mem buf u.heap) u.hashval_check ≠ 0))
        buf u) offset = .error e →
      ∃ w1, vfs_write_with pw MD5 rootdir w path buf offset fi u = some (-(e : Int), w1)) := by
  have hk : decide (check_hash MD5 w.hashtable (encrypted_mem buf u.heap) u.hashval_check ≠ 0)
      = (ht_get w.hashtable (digest_at MD5 (encrypted_mem buf u.heap)) u.hashval_check).isSome := by
    unfold check_hash
    cases ht_get w.hashtable (digest_at MD5 (encrypted_mem buf u.heap)) u.hashval_check <;> simp
  rw [hk, vfs_write_with_eq pw MD5 rootdir w path buf offset fi u hc hg]
  refine ⟨fun known => vfs_write_payload_length known buf u, ?_, ?_⟩
  · intro fs1 n h
    rw [h]
    exact ⟨_, rfl⟩
  · intro e h
    rw [h]
    exact ⟨_, rfl⟩

theorem vfs_write_result_witness :
    (∃ w1, vfs_write_with pwrite sample_md5 (cs "/r") sample_world (cs "/a") (cs "hello world") 0
        (sample_fi "/r/a") sample_indet = some ((11 : Int), w1)) ∧
    (∃ w1, vfs_write_with pwrite sample_md5 (cs "/r") sample_world_a (cs "/b") (cs "hello world") 0
        (sample_fi "/r/b") sample_indet = some ((11 : Int), w1)) ∧
    (∃ w1, vfs_write_with pwrite sample_md5 (cs "/r") sample_world (cs "/a") (cs "hello world") 0
        ⟨O_RDWR, none⟩ sample_indet = some ((-9 : Int), w1)) ∧
    (∃ w1, vfs_write_with pwrite sample_md5 (cs "/r") sample_world_a (cs "/b") (cs "hello world") 0
        ⟨O_RDWR, none⟩ sample_indet = some ((-9 : Int), w1)) ∧
    (∃ w1, vfs_write_with (pwrite_short 4) sample_md5 (cs "/r") sample_world_a (cs "/b")
        (cs "hello world") 0 (sample_fi "/r/b") sample_indet = some ((4 : Int), w1)) :=
  ⟨(vfs_write_result pwrite sample_md5 (cs "/r") sample_world (cs "/a") (cs "hello world") 0
      (sample_fi "/r/a") sample_indet (by decide) (by decide) (by decide)).2.1 _ _ rfl,
   (vfs_write_result pwrite sample_md5 (cs "/r") sample_world_a (cs "/b") (cs "hello world") 0
      (sample_fi "/r/b") sample_indet (by decide) (by decide) (by decide)).2.1 _ _ rfl,
   (vfs_write_result pwrite sample_md5 (cs "/r") sample_world (cs "/a") (cs "hello world") 0
      ⟨O_RDWR, none⟩ sample_indet (by decide) (by decide) (by decide)).2.2 _ rfl,
   (vfs_write_result pwrite sample_md5 (cs "/r") sample_world_a (cs "/b") (cs "hello world") 0
      ⟨O_RDWR, none⟩ sample_indet (by decide) (by decide) (by decide)).2.2 _ rfl,
   (vfs_write_result (pwrite_short 4) sample_md5 (cs "/r") sample_world_a (cs "/b")
      (cs "hello world") 0 (sample_fi "/r/b") sample_indet (by decide) (by decide)
      (by decide)).2.1 _ _ rfl⟩

/-- C13, the claim as stated fails after a short write.  The 11 bytes
`hello world` are written through `/r/a` and the backing `pwrite` transfers 4
bytes: it does not fail, it returns 4.  Whatever the digest function,
`vfs_write` does not return 11; with the stand-in digest function it returns
4, the count of the backing write, for novel content and, in the state after
a first complete write, for known content as well; the digest of these runs
has no byte of 128 or more. -/
theorem short_write_counterexample :
    (¬ ∃ (MD5 : List Nat → List Nat) (w1 : world),
      vfs_write_with (pwrite_short 4) MD5 (cs "/r") sample_world (cs "/a") (cs "hello world") 0
        (sample_fi "/r/a") sample_indet = some ((11 : Int), w1)) ∧
    (pwrite_short 4 sample_world.fs (sample_fi "/r/a").fh
        (vfs_write_payload false (cs "hello world") sample_indet) 0).toOption.map (fun r => r.2)
      = some 4 ∧
    (vfs_write_with (pwrite_short 4) sample_md5 (cs "/r") sample_world (cs "/a") (cs "hello world") 0
        (sample_fi "/r/a") sample_indet).map (fun r => r.1) = some 4 ∧
    (pwrite_short 4 sample_world_a.fs (sample_fi "/r/b").fh
        (vfs_write_payload true (cs "hello world") sample_indet) 0).toOption.map (fun r => r.2)
      = some 4 ∧
    (vfs_write_with (pwrite_short 4) sample_md5 (cs "/r") sample_world_a (cs "/b") (cs "hello world") 0
        (sample_fi "/r/b") sample_indet).map (fun r => r.1) = some 4 ∧
    digest_fits sample_md5 (encrypted_mem (cs "hello world") sample_indet.heap) = true := by
  refine ⟨?_, by decide, by decide, by decide, by decide, by decide⟩
  rintro ⟨MD5, w1, h⟩
  have hchk : check_hash MD5 sample_world.hashtable
      (encrypted_mem (cs "hello world") sample_indet.heap) sample_indet.hashval_check = 0 := by
    simp [check_hash, ht_get_none_of_absent _ _ _ (sample_world_absent _)]
  unfold vfs_write_with at h
  simp only [hchk, if_true] at h
  have hp : ∃ fs1, pwrite_short 4 sample_world.fs (sample_fi "/r/a").fh
      (vfs_write_payload false (cs "hello world") sample_indet) 0 = .ok (fs1, 4) := ⟨_, rfl⟩
  obtain ⟨fs1, hp⟩ := hp
  rw [hp] at h
  simp only [Option.some.injEq, Prod.mk.injEq] at h
  have := h.1
  omega

/-- C14 (sidecar file layout), as amended.  For a backing file `<dir>/<name>`
(`name` without a slash) the sidecar path computed by `write_hash`, and by
`vfs_read`, is `<dir>/.hash/<name>_hash`; the shadow directory is
`<dir>/.hash`, and after `write_hash` the path of the shadow directory exists
(as a directory, unless a regular file of that name was there before). -/
theorem sidecar_layout (rootdir path dir name : CString)
    (hname : ∀ c ∈ name, c ≠ 47) (hsplit : rootdir ++ path = dir ++ cs "/" ++ name) :
    write_hash_final_file rootdir path = dir ++ cs "/.hash/" ++ name ++ cs "_hash" ∧
    vfs_read_final_file rootdir path = dir ++ cs "/.hash/" ++ name ++ cs "_hash" ∧
    write_hash_final_folder rootdir path = dir ++ cs "/.hash" ∧
    ∀ (MD5 : List Nat → List Nat) (fs : filesys) (enc : Nat → Nat),
      stat_ok (write_hash MD5 rootdir fs enc path) (dir ++ cs "/.hash") = true ∧
      (fs.files (dir ++ cs "/.hash") = none →
        (write_hash MD5 rootdir fs enc path).dirs (dir ++ cs "/.hash") = true) := by
  obtain ⟨n, hle, hno, hsl, hfolder, hfile, hread⟩ := sidecar_shape rootdir path
  have hs : cs "/" = [47] := by decide
  have hsplit2 : rootdir ++ path = dir ++ 47 :: name := by
    rw [hsplit, hs]; simp
  obtain ⟨htake, hdrop⟩ := split_at_slash _ dir name n hle hno hsl hname hsplit2
  have e1 : dir ++ [47] ++ cs ".hash" = dir ++ cs "/.hash" := by
    have : cs "/.hash" = 47 :: cs ".hash" := by decide
    rw [this]; simp
  have e2 : dir ++ cs "/.hash" ++ cs "/" ++ (name ++ cs "_hash")
      = dir ++ cs "/.hash/" ++ name ++ cs "_hash" := by
    have : cs "/.hash/" = cs "/.hash" ++ cs "/" := by decide
    rw [this]; simp
  have hfolder2 : write_hash_final_folder rootdir path = dir ++ cs "/.hash" := by
    rw [hfolder, htake, e1]
  have hfile2 : write_hash_final_file rootdir path = dir ++ cs "/.hash/" ++ name ++ cs "_hash" := by
    rw [hfile, htake, hdrop, e1, e2]
  refine ⟨hfile2, by rw [hread, hfile2], hfolder2, ?_⟩
  intro MD5 fs enc
  have hstat := write_hash_stat MD5 rootdir fs enc path
  rw [hfolder2] at hstat
  refine ⟨hstat, ?_⟩
  intro hnone
  have hne : dir ++ cs "/.hash" ≠ write_hash_final_file rootdir path := by
    rw [← hfolder2]
    exact fun h => sidecar_ne_folder rootdir path rootdir path h.symm
  have hfiles := write_hash_files_other MD5 rootdir fs enc path _ hne
  unfold stat_ok at hstat
  rw [hfiles, hnone] at hstat
  simpa using hstat

theorem sidecar_layout_witness :
    write_hash_final_file (cs "/r") (cs "/sub/a") = cs "/r/sub" ++ cs "/.hash/" ++ cs "a" ++ cs "_hash" ∧
    vfs_read_final_file (cs "/r") (cs "/sub/a") = cs "/r/sub" ++ cs "/.hash/" ++ cs "a" ++ cs "_hash" ∧
    write_hash_final_folder (cs "/r") (cs "/sub/a") = cs "/r/sub" ++ cs "/.hash" ∧
    ∀ (MD5 : List Nat → List Nat) (fs : filesys) (enc : Nat → Nat),
      stat_ok (write_hash MD5 (cs "/r") fs enc (cs "/sub/a")) (cs "/r/sub" ++ cs "/.hash") = true ∧
      (fs.files (cs "/r/sub" ++ cs "/.hash") = none →
        (write_hash MD5 (cs "/r") fs enc (cs "/sub/a")).dirs (cs "/r/sub" ++ cs "/.hash") = true) :=
  sidecar_layout (cs "/r") (cs "/sub/a") (cs "/r/sub") (cs "a") (by decide) (by decide)

/-- C14, the claim as stated fails: for the backing file `/r/a` the sidecar
path computed by `write_hash` and by `vfs_read` is `/r/.hash/a_hash`, not
`/r/.hash/a`. -/
theorem sidecar_layout_counterexample :
    write_hash_final_file (cs "/r") (cs "/a") = cs "/r/.hash/a_hash" ∧
    vfs_read_final_file (cs "/r") (cs "/a") = cs "/r/.hash/a_hash" ∧
    cs "/r/.hash/a_hash" ≠ cs "/r/.hash/a" ∧
    write_hash_final_folder (cs "/r") (cs "/a") = cs "/r/.hash" := by
  refine ⟨by decide, by decide, by decide, by decide⟩

/-- C15 (index keys).  In every table reached from `ht_create (size)` by
`ht_set` calls every bucket chain is strictly ascending in `strcmp` order, so
no key occurs twice in one chain; and `ht_set` on an ascending chain that
holds the key replaces the value and adds no entry.  A key can still occur in
two entries of the table: in the table of `main`, `ht_set` of a digest string
with `hashval` holding 0 on entry to `ht_hash` and `ht_set` of the same string
with `hashval` holding `ULONG_MAX` put one entry in bucket 12336 and a second
entry in bucket 65535. -/
theorem chains_ascending_keys_repeat :
    (∀ (size : Int) (t : hashtable_t) (calls : List set_call), ht_create size = some t →
      ∀ c ∈ (ht_set_seq t calls).table,
        chain_ascending c ∧ (c.map (fun e => e.key)).Nodup) ∧
    (∀ (key value : CString) (c : List entry_t), chain_ascending c → (∃ e ∈ c, e.key = key) →
      (chain_set key value c).map (fun e => e.key) = c.map (fun e => e.key) ∧
      (chain_set key value c).length = c.length ∧
      chain_get key (chain_set key value c) = some value) ∧
    ht_create 65536 = some main_table ∧
    (ht_set_seq main_table
        [⟨cs "6d6a717174257c740000000000000000", cs "/r/a", 0⟩,
         ⟨cs "6d6a717174257c740000000000000000", cs "/r/b", ULONG_MAX⟩]).table.getD 12336 []
      = [⟨cs "6d6a717174257c740000000000000000", cs "/r/a"⟩] ∧
    (ht_set_seq main_table
        [⟨cs "6d6a717174257c740000000000000000", cs "/r/a", 0⟩,
         ⟨cs "6d6a717174257c740000000000000000", cs "/r/b", ULONG_MAX⟩]).table.getD 65535 []
      = [⟨cs "6d6a717174257c740000000000000000", cs "/r/b"⟩] := by
  have hb1 : ht_hash main_table (cs "6d6a717174257c740000000000000000") 0 = 12336 := by decide
  have hb2 : ht_hash main_table (cs "6d6a717174257c740000000000000000") ULONG_MAX = 65535 := by
    decide
  obtain ⟨h1, h2, _⟩ := ht_set_two_buckets main_table (cs "6d6a717174257c740000000000000000")
    (cs "/r/a") (cs "/r/b") 0 ULONG_MAX main_table_wf (by rw [hb1, hb2]; decide)
    (main_table_bucket _) (main_table_bucket _)
  rw [hb1] at h1
  rw [hb2] at h2
  refine ⟨?_, ?_, rfl, h1, h2⟩
  · intro size t calls hc c hmem
    have hasc := ht_set_seq_all_ascending calls t (ht_create_all_ascending size t hc) c hmem
    exact ⟨hasc, ascending_keys_nodup c hasc⟩
  · intro key value c hasc hp
    obtain ⟨hk, hl⟩ := chain_set_present key value c hasc hp
    exact ⟨hk, hl, chain_get_chain_set key value c⟩

/-- C16 (map semantics).  For every table built by `ht_create` and `ht_set`:
a lookup of `k'` different from `k` returns after `ht_set (t, k, v)` what it
returned before, a fresh table returns NULL for every key, and `ht_get (t, k)`
after `ht_set (t, k, v)` returns `v` when `ht_hash` computes the same bucket in
both calls.  It does not in general: in the table of `main`, after `ht_set` of
a digest string with `hashval` holding 0 on entry to `ht_hash`, the `ht_get` of
the same string with `hashval` holding `ULONG_MAX` returns NULL, and so does
the lookup of the key `a` stored with `hashval` 0 and looked up with `hashval`
1. -/
theorem map_semantics_up_to_bucket :
    (∀ (t : hashtable_t) (k v : CString) (h1 h2 : Nat), ht_wf t →
      ht_hash t k h1 = ht_hash t k h2 → ht_get (ht_set t k v h1) k h2 = some v) ∧
    (∀ (t : hashtable_t) (k other v : CString) (h h2 : Nat), other ≠ k →
      ht_get (ht_set t k v h) other h2 = ht_get t other h2) ∧
    (∀ (size : Int) (t : hashtable_t) (k : CString) (h : Nat), ht_create size = some t →
      ht_get t k h = none) ∧
    (∀ (size : Int) (t : hashtable_t) (calls : List set_call), ht_create size = some t →
      ht_wf (ht_set_seq t calls)) ∧
    ht_create 65536 = some main_table ∧
    ht_get (ht_set main_table (cs "6d6a717174257c740000000000000000") (cs "/r/a") 0)
      (cs "6d6a717174257c740000000000000000") ULONG_MAX = none ∧
    ht_get (ht_set main_table (cs "a") (cs "x") 0) (cs "a") 1 = none := by
  have hb1 : ht_hash main_table (cs "6d6a717174257c740000000000000000") 0 = 12336 := by decide
  have hb2 : ht_hash main_table (cs "6d6a717174257c740000000000000000") ULONG_MAX = 65535 := by
    decide
  have ha1 : ht_hash main_table (cs "a") 0 = 97 := by decide
  have ha2 : ht_hash main_table (cs "a") 1 = 353 := by decide
  refine ⟨fun t k v h1 h2 hwf hb => ht_get_ht_set t k v h1 h2 hwf hb,
    fun t k other v h h2 hne => ht_get_ht_set_other t k other v h h2 hne,
    fun size t k h hc => ht_get_none_of_absent t k h (ht_create_absent size t hc k),
    fun size t calls hc => ht_set_seq_wf calls t (ht_create_wf size t hc), rfl, ?_, ?_⟩
  · exact (ht_set_two_buckets main_table (cs "6d6a717174257c740000000000000000")
      (cs "/r/a") (cs "/r/a") 0 ULONG_MAX main_table_wf (by rw [hb1, hb2]; decide)
      (main_table_bucket _) (main_table_bucket _)).2.2
  · exact (ht_set_two_buckets main_table (cs "a") (cs "x") (cs "x") 0 1 main_table_wf
      (by rw [ha1, ha2]; decide) (main_table_bucket _) (main_table_bucket _)).2.2

/-- C17 (digest rendering).  The string returned has 32 characters, and for
every byte below 128 the characters `2i` and `2i+1` are its two lowercase
hexadecimal digits.  For a byte of 128 or more the `char` is negative,
`sprintf` prints the sign-extended value (`ffffff80` for 128, past the end of
`ch[3]`) and both characters are `f`: the digests `80 00 ... 00` and
`81 00 ... 00` are rendered as the same string. -/
theorem digest_rendering_signed_char :
    (∀ md : List Nat, (get_md5_sum_formatted md).length = 32) ∧
    (∀ (md : List Nat) (i : Nat), i < 16 → md.getD i 0 < 128 →
      (get_md5_sum_formatted md).getD (2 * i) 0 = hex_digit (md.getD i 0 / 16) ∧
      (get_md5_sum_formatted md).getD (2 * i + 1) 0 = hex_digit (md.getD i 0 % 16)) ∧
    (∀ (md : List Nat) (i : Nat), i < 16 → 128 ≤ md.getD i 0 → md.getD i 0 < 256 →
      (get_md5_sum_formatted md).getD (2 * i) 0 = 102 ∧
      (get_md5_sum_formatted md).getD (2 * i + 1) 0 = 102) ∧
    sprintf_02x 128 = cs "ffffff80" ∧
    128 :: List.replicate 15 0 ≠ 129 :: List.replicate 15 0 ∧
    get_md5_sum_formatted (128 :: List.replicate 15 0) = cs "ff000000000000000000000000000000" ∧
    get_md5_sum_formatted (129 :: List.replicate 15 0) = cs "ff000000000000000000000000000000" := by
  refine ⟨get_md5_sum_formatted_length, ?_, ?_, by decide, by decide, by decide, by decide⟩
  · intro md i hi hb
    obtain ⟨h0, h1⟩ := get_md5_sum_formatted_chars md i hi
    rw [h0, h1, sprintf_02x_small _ hb]
    exact ⟨rfl, rfl⟩
  · intro md i hi hb1 hb2
    obtain ⟨h0, h1⟩ := get_md5_sum_formatted_chars md i hi
    rw [h0, h1]
    exact sprintf_02x_negative _ hb2 hb1

/-- C18 (reader and writer agree).  For every root directory and every path,
the sidecar path `vfs_read` opens is the sidecar path `write_hash` creates. -/
theorem sidecar_path_agreement (rootdir path : CString) :
    vfs_read_final_file rootdir path = write_hash_final_file rootdir path := by
  simp only [vfs_read_final_file, write_hash_final_file, write_hash_final_folder,
    write_hash_path_copy]

/-- C19 (bucket index).  The value `ht_hash` returns is below `size` for every
table with `size ≥ 1`, every key and every initial content of `hashval`, so
the accesses `table[bin]` are inside the bucket array of a table built by
`ht_create` and `ht_set`.  The bucket is not the same on every call: in the
table of `main` the key `a` goes to bucket 97 when the uninitialised `hashval`
holds 0 and to bucket 353 when it holds 1, and a 32-character digest string
goes to bucket 12336 when `hashval` holds 0 and to bucket 65535 when it holds
`ULONG_MAX` (the loop is then not entered). -/
theorem ht_hash_in_range_not_stable :
    (∀ (t : hashtable_t) (key : CString) (h : Nat), 1 ≤ t.size → ht_hash t key h < t.size) ∧
    (∀ (t : hashtable_t) (key : CString) (h : Nat), ht_wf t → ht_hash t key h < t.table.length) ∧
    ht_hash main_table (cs "a") 0 = 97 ∧ ht_hash main_table (cs "a") 1 = 353 ∧
    ht_hash main_table (cs "6d6a717174257c740000000000000000") 0 = 12336 ∧
    ht_hash main_table (cs "6d6a717174257c740000000000000000") ULONG_MAX = 65535 := by
  refine ⟨fun t key h hs => ht_hash_range t key h hs, fun t key h hwf => ht_hash_lt t key h hwf,
    by decide, by decide, by decide, by decide⟩

end Vfs
